import Mathlib

/-!
# jptype: the keystroke match state machine

A shallow embedding of `main.go`: the session data model, the session
generator `selectRandomWords`, the keystroke handler `handleInput` and the
words view `getWordsView`.

Conventions of the embedding.

* A Go `string` is its sequence of bytes, a `List Nat` whose entries are
  below 256.  A `rune` is an `Int` (Go: `int32`).
* A run-time panic (index out of range, `rand.Intn` on an empty bank) is the
  result `none`; a call that returns gives `some` of the mutated state.
* The two functions of other packages that `handleInput` calls,
  `jpkana.RomajiToKatakana` and `unicode.Is(unicode.Katakana, ·)`, are the
  fields of a parameter `Deps`; the colour objects of `fatih/color` that the
  view calls are the fields of a parameter `Styles`.
* `Stats` (two `float32` fields, never read or written) is left out of
  `State`.
-/

namespace JpType

/-! ## Go strings and runes -/

/-- A Go string: its bytes. -/
abbrev GoString := List Nat

/-- A Go rune (`int32`). -/
abbrev Rune := Int

/-- The replacement character `utf8.RuneError`. -/
def RuneError : Rune := 0xFFFD

/-- The byte order mark, which `text/scanner` drops at the start of its source. -/
def BOM : Rune := 0xFEFF

/-- The conversion `string(r)` of one rune: its UTF-8 encoding, and that of
`utf8.RuneError` for a value that is not a Unicode scalar value. -/
def encodeRune (r : Rune) : GoString :=
  if r < 0 then [0xEF, 0xBF, 0xBD]
  else
    let n := r.toNat
    if n ≤ 0x7F then [n]
    else if n ≤ 0x7FF then [0xC0 + n / 64, 0x80 + n % 64]
    else if 0xD800 ≤ n ∧ n ≤ 0xDFFF then [0xEF, 0xBF, 0xBD]
    else if n ≤ 0xFFFF then [0xE0 + n / 4096, 0x80 + n / 64 % 64, 0x80 + n % 64]
    else if n ≤ 0x10FFFF then
      [0xF0 + n / 262144, 0x80 + n / 4096 % 64, 0x80 + n / 64 % 64, 0x80 + n % 64]
    else [0xEF, 0xBF, 0xBD]

/-- The conversion `string(b)` of a rune slice. -/
def encodeRunes : List Rune → GoString
  | [] => []
  | r :: rs => encodeRune r ++ encodeRunes rs

/-- A continuation byte `10xxxxxx`. -/
def isCont (b : Nat) : Bool := 0x80 ≤ b && b ≤ 0xBF

/-- The function `utf8.DecodeRune` on a non-empty input `b0 :: rest`: the rune
and the number of bytes it takes.  An ill-formed or truncated sequence gives
`(RuneError, 1)`. -/
def decodeRune (b0 : Nat) (rest : GoString) : Rune × Nat :=
  if b0 < 0x80 then (b0, 1)
  else if b0 < 0xC2 then (RuneError, 1)
  else if b0 < 0xE0 then
    match rest with
    | b1 :: _ =>
      if isCont b1 then (((b0 % 32) * 64 + b1 % 64 : Nat), 2) else (RuneError, 1)
    | _ => (RuneError, 1)
  else if b0 < 0xF0 then
    match rest with
    | b1 :: b2 :: _ =>
      let lo := if b0 = 0xE0 then 0xA0 else 0x80
      let hi := if b0 = 0xED then 0x9F else 0xBF
      if lo ≤ b1 ∧ b1 ≤ hi ∧ isCont b2 then
        (((b0 % 16) * 4096 + (b1 % 64) * 64 + b2 % 64 : Nat), 3)
      else (RuneError, 1)
    | _ => (RuneError, 1)
  else if b0 < 0xF5 then
    match rest with
    | b1 :: b2 :: b3 :: _ =>
      let lo := if b0 = 0xF0 then 0x90 else 0x80
      let hi := if b0 = 0xF4 then 0x8F else 0xBF
      if lo ≤ b1 ∧ b1 ≤ hi ∧ isCont b2 ∧ isCont b3 then
        (((b0 % 8) * 262144 + (b1 % 64) * 4096 + (b2 % 64) * 64 + b3 % 64 : Nat), 4)
      else (RuneError, 1)
    | _ => (RuneError, 1)
  else (RuneError, 1)

/-- The runes of a string, decoded one after the other; `skip` counts the
bytes of the rune just decoded that are still to be passed over. -/
def decodeFrom : GoString → Nat → List Rune
  | [], _ => []
  | _ :: rest, skip + 1 => decodeFrom rest skip
  | b0 :: rest, 0 => (decodeRune b0 rest).1 :: decodeFrom rest ((decodeRune b0 rest).2 - 1)

/-- The conversion `[]rune(s)`. -/
def decodeRunes (s : GoString) : List Rune := decodeFrom s 0

/-- The runes that `scanner.Scanner.Next` returns before `scanner.EOF`, for a
scanner initialised on `strings.NewReader(s)`: the decoded runes of `s`, less a
byte order mark in first position (which `Scanner.Peek` skips). -/
def scanRunes (s : GoString) : List Rune :=
  match decodeRunes s with
  | r :: rs => if r = BOM then rs else r :: rs
  | [] => []

/-! ## The data model (`main.go`, lines 25-57) -/

/-- The type `KanaState`, an `int`. -/
abbrev KanaState := Int

/-- `KanaInactive = 1 << 0`. -/
def KanaInactive : KanaState := 1
/-- `KanaActive = 1 << 1`. -/
def KanaActive : KanaState := 2
/-- `KanaCorrect = 1 << 2`. -/
def KanaCorrect : KanaState := 4
/-- `KanaIncorrect = 1 << 3`. -/
def KanaIncorrect : KanaState := 8

/-- The struct `Kana`. -/
structure Kana where
  kana : Rune
  state : KanaState
  deriving DecidableEq, Repr

/-- The struct `StateWord`. -/
structure StateWord where
  kana : List Kana
  typed : Bool
  active : Bool
  deriving DecidableEq, Repr

/-- The struct `State` (without `stats`). -/
structure State where
  words : List GoString
  sessionWords : List StateWord
  activeIndex : Int
  currentInput : GoString
  clearNecessary : Bool
  deriving DecidableEq, Repr

/-- The struct `keyboard.KeyEvent`, as far as `handleInput` reads it: the key
code (`uint16`) and the rune. -/
structure KeyEvent where
  Key : Nat
  Rune : Rune
  deriving DecidableEq, Repr

/-- The constant `keyboard.KeyBackspace`. -/
def KeyBackspace : Nat := 0x08

/-- The functions of other packages that `handleInput` calls. -/
structure Deps where
  /-- The function `jpkana.RomajiToKatakana`. -/
  RomajiToKatakana : GoString → GoString
  /-- The test `unicode.Is(unicode.Katakana, r)`. -/
  IsKatakana : Rune → Bool

/-! ## Word helpers (`main.go`, lines 163-169) -/

/-- The method `StateWord.getNormalString`: the runes of the word, as a string. -/
def StateWord.getNormalString (word : StateWord) : GoString :=
  encodeRunes (word.kana.map Kana.kana)

/-- The slice index `ws[i]` for an `int` index: `none` when out of range. -/
def wordAt (ws : List StateWord) (i : Int) : Option StateWord :=
  if 0 ≤ i then ws[i.toNat]? else none

/-! ## Session generation (`main.go`, lines 74-97) -/

/-- The inner loop of `selectRandomWords` (lines 78-92): the word scanned into
inactive kana, neither typed nor active. -/
def newStateWord (word : GoString) : StateWord :=
  { kana := (scanRunes word).map (fun r => { kana := r, state := KanaInactive }),
    typed := false, active := false }

/-- The outer loop of `selectRandomWords` (lines 76-93), `n` iterations from
index `i`.  The `j`-th call of `rand.Intn(len(state.words))` returns
`rnd j % len(state.words)`, and panics on an empty bank. -/
def fillWords (words : List GoString) (rnd : Nat → Nat) :
    Nat → Nat → List StateWord → Option (List StateWord)
  | 0, _, sessionWords => some sessionWords
  | n + 1, i, sessionWords =>
    if words.length = 0 then none
    else
      match words[rnd i % words.length]? with
      | none => none
      | some word =>
        if i < sessionWords.length then
          fillWords words rnd n (i + 1) (sessionWords.set i (newStateWord word))
        else none

/-- The method `State.selectRandomWords`. -/
def selectRandomWords (state : State) (count : Int) (rnd : Nat → Nat) : Option State :=
  match fillWords state.words rnd count.toNat 0 state.sessionWords with
  | none => none
  | some sessionWords =>
    match sessionWords with
    | [] => none
    | first :: others =>
      match first.kana with
      | [] => none
      | k :: ks =>
        some { state with
          sessionWords :=
            { kana := { kana := k.kana, state := KanaActive } :: ks,
              typed := first.typed, active := true } :: others }

/-- The `State` literal of `main` (lines 204-210), with the session length 16
as the parameter `n`. -/
def initialState (words : List GoString) (n : Nat) : State :=
  { words := words,
    sessionWords := List.replicate n { kana := [], typed := false, active := false },
    activeIndex := 0, currentInput := [], clearNecessary := false }

/-- The start of `main` (lines 204-212): the initial state, then
`selectRandomWords` for all of its `n` slots. -/
def newSession (words : List GoString) (n : Nat) (rnd : Nat → Nat) : Option State :=
  selectRandomWords (initialState words n) n rnd

/-! ## Keystroke handling (`main.go`, lines 99-146) -/

/-- Lines 100-111 of `handleInput`: the edit of the input buffer. -/
def editInput (state : State) (input : KeyEvent) : State :=
  if input.Rune = 0 then
    if input.Key = KeyBackspace then
      if 0 ≤ (state.currentInput.length : Int) - 1 then
        { state with
          currentInput := state.currentInput.take (state.currentInput.length - 1),
          clearNecessary := true }
      else state
    else state
  else { state with currentInput := state.currentInput ++ encodeRune input.Rune }

/-- Lines 132-144 of `handleInput`: the loop over the scanned runes, with
`kanaIndex` the current index into the word's kana. -/
def matchKana (deps : Deps) : List Rune → List Kana → Nat → Option (List Kana)
  | [], kana, _ => some kana
  | r :: rs, kana, kanaIndex =>
    match kana[kanaIndex]? with
    | none => none
    | some k =>
      if k.kana = r then
        let kana1 := kana.set kanaIndex { kana := k.kana, state := KanaCorrect }
        match kana1[kanaIndex + 1]? with
        | none => none
        | some k1 =>
          matchKana deps rs (kana1.set (kanaIndex + 1) { kana := k1.kana, state := KanaActive })
            (kanaIndex + 1)
      else if deps.IsKatakana r then
        some (kana.set kanaIndex { kana := k.kana, state := KanaIncorrect })
      else
        some (kana.set kanaIndex { kana := k.kana, state := KanaActive })

/-- The method `State.handleInput`. -/
def handleInput (deps : Deps) (state : State) (input : KeyEvent) : Option State :=
  let state := editInput state input
  match wordAt state.sessionWords state.activeIndex with
  | none => none
  | some sessionWord =>
    let challenge := sessionWord.getNormalString
    let jpString := deps.RomajiToKatakana state.currentInput
    if jpString = challenge then
      let sessionWords := state.sessionWords.set state.activeIndex.toNat
        { kana := sessionWord.kana, typed := true, active := false }
      let activeIndex := state.activeIndex + 1
      if activeIndex < sessionWords.length then
        match wordAt sessionWords activeIndex with
        | none => none
        | some next =>
          match next.kana with
          | [] => none
          | k :: ks =>
            some { state with
              currentInput := [],
              sessionWords := sessionWords.set activeIndex.toNat
                { kana := { kana := k.kana, state := KanaActive } :: ks,
                  typed := next.typed, active := true },
              activeIndex := activeIndex,
              clearNecessary := true }
      else
        some { state with
          currentInput := [], sessionWords := sessionWords, activeIndex := activeIndex }
    else
      match matchKana deps (scanRunes jpString) sessionWord.kana 0 with
      | none => none
      | some kana =>
        some { state with
          sessionWords := state.sessionWords.set state.activeIndex.toNat
            { kana := kana, typed := sessionWord.typed, active := sessionWord.active } }

/-- A run of key events through `handleInput`, stopping at the first panic. -/
def handleInputs (deps : Deps) : State → List KeyEvent → Option State
  | state, [] => some state
  | state, input :: inputs =>
    match handleInput deps state input with
    | none => none
    | some state1 => handleInputs deps state1 inputs

/-! ## The view (`main.go`, lines 19-23, 59-72, 152-184) -/

/-- The five colour objects of lines 19-23, as the string functions that the
view methods call on them: `Sprint` of each, and `Sprintf` of
`correctWordColor` with its argument as the format. -/
structure Styles where
  inProgressKana : GoString → GoString
  incorrectKana : GoString → GoString
  tentativeKana : GoString → GoString
  inProgressWord : GoString → GoString
  correctWord : GoString → GoString
  correctWordFormat : GoString → GoString

/-- The method `Kana.getColoredString`. -/
def Kana.getColoredString (styles : Styles) (kana : Kana) : GoString :=
  let coloredRune := encodeRune kana.kana
  if kana.state = KanaActive then styles.inProgressKana coloredRune
  else if kana.state = KanaCorrect then styles.tentativeKana coloredRune
  else if kana.state = KanaIncorrect then styles.incorrectKana coloredRune
  else coloredRune

/-- The method `StateWord.getColoredString`. -/
def StateWord.getColoredString (styles : Styles) (word : StateWord) : GoString :=
  if word.typed then styles.correctWordFormat word.getNormalString
  else word.kana.foldl (fun str kana => str ++ kana.getColoredString styles) []

/-- The method `State.getWordsView`; `fmt.Sprintf("%v  %v", view, x)` is
`view`, two spaces, `x`. -/
def getWordsView (styles : Styles) (state : State) : GoString :=
  state.sessionWords.foldl
    (fun view word =>
      if word.typed then
        view ++ [0x20, 0x20] ++ styles.correctWord word.getNormalString
      else if word.active then
        view ++ [0x20, 0x20] ++ styles.inProgressWord (word.getColoredString styles)
      else
        view ++ [0x20, 0x20] ++ word.getNormalString)
    []

/-! ## Vocabulary of the properties -/

/-- The buffer that `handleInput` transliterates: `currentInput` after the edit
of lines 100-111. -/
def updatedInput (state : State) (input : KeyEvent) : GoString :=
  (editInput state input).currentInput

/-- The state of the kana at position `j`, if there is one. -/
def stateAt (kana : List Kana) (j : Nat) : Option KanaState :=
  (kana[j]?).map Kana.state

/-- The length of the longest common initial segment of two rune sequences. -/
def commonLen : List Rune → List Rune → Nat
  | a :: as, b :: bs => if a = b then commonLen as bs + 1 else 0
  | _, _ => 0

/-- The number of runes of `t` that match the kana of the word from position
`i` on, before the first difference. -/
def matchLen (t : List Rune) (kana : List Kana) (i : Nat) : Nat :=
  commonLen t ((kana.map Kana.kana).drop i)

/-- The active-word invariant: `activeIndex` lies between 0 and the number of
session words, the typed words are those before `activeIndex`, and the active
word is the one at `activeIndex`. -/
def ActiveInv (state : State) : Prop :=
  0 ≤ state.activeIndex ∧ state.activeIndex ≤ state.sessionWords.length ∧
  ∀ (i : Nat) (w : StateWord), state.sessionWords[i]? = some w →
    (w.typed = true ↔ (i : Int) < state.activeIndex) ∧
    (w.active = true ↔ (i : Int) = state.activeIndex)

/-- The concatenation of a list of strings. -/
def concatAll : List GoString → GoString
  | [] => []
  | s :: ss => s ++ concatAll ss

/-- The view of one kana as the specification words it: styled by its own
state, and unstyled when the state is none of active, correct, incorrect. -/
def kanaViewSpec (styles : Styles) (kana : Kana) : GoString :=
  if kana.state = KanaActive then styles.inProgressKana (encodeRune kana.kana)
  else if kana.state = KanaCorrect then styles.tentativeKana (encodeRune kana.kana)
  else if kana.state = KanaIncorrect then styles.incorrectKana (encodeRune kana.kana)
  else encodeRune kana.kana

/-- The plain string of a word as the specification words it: the UTF-8 text of
its characters, one after the other. -/
def plainSpec (word : StateWord) : GoString :=
  concatAll (word.kana.map (fun k => encodeRune k.kana))

/-- The view of one word as the specification words it: the plain string in the
confirmed style if the word is typed; else, if it is active, its kana views
concatenated, in the in-progress word style; else the plain string. -/
def wordViewSpec (styles : Styles) (word : StateWord) : GoString :=
  if word.typed then styles.correctWord (plainSpec word)
  else if word.active then
    styles.inProgressWord (concatAll (word.kana.map (kanaViewSpec styles)))
  else plainSpec word

/-- The words view as the specification words it: for each word, in order, two
spaces and the view of the word. -/
def wordsViewSpec (styles : Styles) (words : List StateWord) : GoString :=
  concatAll (words.map (fun word => [0x20, 0x20] ++ wordViewSpec styles word))

/-! ## A fragment of the transliteration table

`jpkana.RomajiToKatakana` is not part of the repository.  The concrete runs
below use the following fragment of its romaji table, converted as the package
does: at each position the longest entry that matches is replaced, and a rune
that starts no entry is copied. -/

/-- The runes of a string literal. -/
def runesOf (s : String) : List Rune := s.data.map (fun c => (c.toNat : Int))

/-- The Go string of a string literal. -/
def bytesOf (s : String) : GoString := encodeRunes (runesOf s)

/-- Entries of the romaji table: romaji, katakana. -/
def sampleTable : List (List Rune × List Rune) :=
  [ (runesOf "a", runesOf "ア"), (runesOf "i", runesOf "イ"), (runesOf "u", runesOf "ウ"),
    (runesOf "ka", runesOf "カ"), (runesOf "ki", runesOf "キ"), (runesOf "ko", runesOf "コ"),
    (runesOf "kya", runesOf "キャ"), (runesOf "na", runesOf "ナ"), (runesOf "ne", runesOf "ネ"),
    (runesOf "n", runesOf "ン") ]

/-- The longest entry of the table whose romaji starts the input. -/
def longestEntry (table : List (List Rune × List Rune)) (rs : List Rune) :
    Option (List Rune × List Rune) :=
  table.foldl
    (fun best e =>
      if e.1.isPrefixOf rs && (match best with | some b => b.1.length | none => 0) < e.1.length
      then some e else best)
    none

/-- The conversion of a rune sequence by the table; `skip` counts the runes
of the entry just replaced that are still to be passed over. -/
def convertFrom (table : List (List Rune × List Rune)) : List Rune → Nat → List Rune
  | [], _ => []
  | _ :: rest, skip + 1 => convertFrom table rest skip
  | r :: rest, 0 =>
    match longestEntry table (r :: rest) with
    | some e => e.2 ++ convertFrom table rest (e.1.length - 1)
    | none => r :: convertFrom table rest 0

/-- The Katakana script in the Basic Multilingual Plane (the 16-bit ranges of
`unicode.Katakana`). -/
def sampleIsKatakana (r : Rune) : Bool :=
  (0x30A1 ≤ r && r ≤ 0x30FA) || (0x30FD ≤ r && r ≤ 0x30FF) || (0x31F0 ≤ r && r ≤ 0x31FF) ||
  (0x32D0 ≤ r && r ≤ 0x32FE) || (0x3300 ≤ r && r ≤ 0x3357) || (0xFF66 ≤ r && r ≤ 0xFF6F) ||
  (0xFF71 ≤ r && r ≤ 0xFF9D)

/-- The two package functions, on the fragment. -/
def sampleDeps : Deps :=
  { RomajiToKatakana := fun s => encodeRunes (convertFrom sampleTable (decodeRunes s) 0),
    IsKatakana := sampleIsKatakana }

/-- The key event of a printable character. -/
def keyOf (c : Char) : KeyEvent := { Key := 0, Rune := c.toNat }

/-- The key event of the backspace key. -/
def backspace : KeyEvent := { Key := KeyBackspace, Rune := 0 }

/-- A session of one word, fresh from `selectRandomWords`. -/
def oneWord (word : String) : Option State := newSession [bytesOf word] 1 (fun _ => 0)

/-- The session of the bank `ア`, (empty line), with the two slots drawn in
order: the second session word has no kana. -/
def sessionEmptyNext : State :=
  { words := [bytesOf "ア", []],
    sessionWords :=
      [ { kana := [{ kana := 0x30A2, state := KanaActive }], typed := false, active := true },
        { kana := [], typed := false, active := false } ],
    activeIndex := 0, currentInput := [], clearNecessary := false }

/-- The session of the one word `キ` after the keys `k`, `y`. -/
def sessionKy : State :=
  { words := [bytesOf "キ"],
    sessionWords :=
      [ { kana := [{ kana := 0x30AD, state := KanaActive }], typed := false, active := true } ],
    activeIndex := 0, currentInput := bytesOf "ky", clearNecessary := false }

/-- The session of the one word `ネコ` after the keys `n`, `e`, `k`, `o`. -/
def sessionNekoTyped : State :=
  { words := [bytesOf "ネコ"],
    sessionWords :=
      [ { kana := [{ kana := 0x30CD, state := KanaCorrect },
                   { kana := 0x30B3, state := KanaActive }],
          typed := true, active := false } ],
    activeIndex := 1, currentInput := [], clearNecessary := false }

/-- The session of the bank `ア`, `イ`, with the two slots drawn in order. -/
def sessionTwoWords : State :=
  { words := [bytesOf "ア", bytesOf "イ"],
    sessionWords :=
      [ { kana := [{ kana := 0x30A2, state := KanaActive }], typed := false, active := true },
        { kana := [{ kana := 0x30A4, state := KanaInactive }], typed := false, active := false } ],
    activeIndex := 0, currentInput := [], clearNecessary := false }

/-- The session of the one word `ネコ` after the keys `n`, `e`, `k`. -/
def sessionNek : State :=
  { words := [bytesOf "ネコ"],
    sessionWords :=
      [ { kana := [{ kana := 0x30CD, state := KanaCorrect },
                   { kana := 0x30B3, state := KanaActive }],
          typed := false, active := true } ],
    activeIndex := 0, currentInput := bytesOf "nek", clearNecessary := false }

/-- The fresh session of the one word `アイウ`. -/
def sessionAiu : State :=
  { words := [bytesOf "アイウ"],
    sessionWords :=
      [ { kana := [{ kana := 0x30A2, state := KanaActive },
                   { kana := 0x30A4, state := KanaInactive },
                   { kana := 0x30A6, state := KanaInactive }],
          typed := false, active := true } ],
    activeIndex := 0, currentInput := [], clearNecessary := false }

/-- The session of the one word `アイウ` after the key `a`. -/
def sessionAiuA : State :=
  { words := [bytesOf "アイウ"],
    sessionWords :=
      [ { kana := [{ kana := 0x30A2, state := KanaCorrect },
                   { kana := 0x30A4, state := KanaActive },
                   { kana := 0x30A6, state := KanaInactive }],
          typed := false, active := true } ],
    activeIndex := 0, currentInput := bytesOf "a", clearNecessary := false }

/-- The session of the one word `アイウ` after the keys `a`, `i`, backspace. -/
def sessionAiuStale : State :=
  { words := [bytesOf "アイウ"],
    sessionWords :=
      [ { kana := [{ kana := 0x30A2, state := KanaCorrect },
                   { kana := 0x30A4, state := KanaActive },
                   { kana := 0x30A6, state := KanaActive }],
          typed := false, active := true } ],
    activeIndex := 0, currentInput := bytesOf "a", clearNecessary := true }

/-- The session of the one word `アイウ` after the keys `a`, `i`. -/
def sessionAiuAi : State :=
  { words := [bytesOf "アイウ"],
    sessionWords :=
      [ { kana := [{ kana := 0x30A2, state := KanaCorrect },
                   { kana := 0x30A4, state := KanaCorrect },
                   { kana := 0x30A6, state := KanaActive }],
          typed := false, active := true } ],
    activeIndex := 0, currentInput := bytesOf "ai", clearNecessary := false }

/-- The session of the one word `ア` after the key `a`: the word is typed and
`activeIndex` is the number of session words. -/
def sessionFinished : State :=
  { words := [bytesOf "ア"],
    sessionWords :=
      [ { kana := [{ kana := 0x30A2, state := KanaActive }], typed := true, active := false } ],
    activeIndex := 1, currentInput := [], clearNecessary := false }

/-- The fresh session of the one word `ア`. -/
def sessionA : State :=
  { words := [bytesOf "ア"],
    sessionWords :=
      [ { kana := [{ kana := 0x30A2, state := KanaActive }], typed := false, active := true } ],
    activeIndex := 0, currentInput := [], clearNecessary := false }

/-- The key event of the character `é` (U+00E9), two bytes in UTF-8. -/
def keyEAcute : KeyEvent := { Key := 0, Rune := 0xE9 }

/-- The session of the one word `ア` after the key `é`. -/
def sessionAccent : State :=
  { words := [bytesOf "ア"],
    sessionWords :=
      [ { kana := [{ kana := 0x30A2, state := KanaActive }], typed := false, active := true } ],
    activeIndex := 0, currentInput := [0xC3, 0xA9], clearNecessary := false }

/-- The session of the one word `ア` after the key `é` and backspace. -/
def sessionAccentCut : State :=
  { words := [bytesOf "ア"],
    sessionWords :=
      [ { kana := [{ kana := 0x30A2, state := KanaActive }], typed := false, active := true } ],
    activeIndex := 0, currentInput := [0xC3], clearNecessary := true }

/-- The session `sessionTwoWords` after the key `a`. -/
def sessionTwoWordsNext : State :=
  { words := [bytesOf "ア", bytesOf "イ"],
    sessionWords :=
      [ { kana := [{ kana := 0x30A2, state := KanaActive }], typed := true, active := false },
        { kana := [{ kana := 0x30A4, state := KanaActive }], typed := false, active := true } ],
    activeIndex := 1, currentInput := [], clearNecessary := true }

/-- The buffer of the session has been scanned: while there is a word at
`activeIndex`, the buffer does not transliterate to that word, and the loop of
`handleInput` on the present buffer leaves the kana of the word as they are. -/
def Settled (deps : Deps) (state : State) : Prop :=
  ∀ word, wordAt state.sessionWords state.activeIndex = some word →
    deps.RomajiToKatakana state.currentInput ≠ word.getNormalString ∧
    matchKana deps (scanRunes (deps.RomajiToKatakana state.currentInput)) word.kana 0 =
      some word.kana

/-- The fresh session of the one word `ンコ`. -/
def sessionNko : State :=
  { words := [bytesOf "ンコ"],
    sessionWords :=
      [ { kana := [{ kana := 0x30F3, state := KanaActive },
                   { kana := 0x30B3, state := KanaInactive }],
          typed := false, active := true } ],
    activeIndex := 0, currentInput := [], clearNecessary := false }

/-- The session of the one word `ンコ` after the key `n`. -/
def sessionNkoN : State :=
  { words := [bytesOf "ンコ"],
    sessionWords :=
      [ { kana := [{ kana := 0x30F3, state := KanaCorrect },
                   { kana := 0x30B3, state := KanaActive }],
          typed := false, active := true } ],
    activeIndex := 0, currentInput := bytesOf "n", clearNecessary := false }

/-- The session of the one word `ンコ` after the keys `n`, `a`. -/
def sessionNkoNa : State :=
  { words := [bytesOf "ンコ"],
    sessionWords :=
      [ { kana := [{ kana := 0x30F3, state := KanaIncorrect },
                   { kana := 0x30B3, state := KanaActive }],
          typed := false, active := true } ],
    activeIndex := 0, currentInput := bytesOf "na", clearNecessary := false }

/-- The key event of the byte order mark, U+FEFF. -/
def keyBom : KeyEvent := { Key := 0, Rune := 0xFEFF }

/-- The session of the one word `ア` after the key of the byte order mark. -/
def sessionBom : State :=
  { words := [bytesOf "ア"],
    sessionWords :=
      [ { kana := [{ kana := 0x30A2, state := KanaActive }], typed := false, active := true } ],
    activeIndex := 0, currentInput := [0xEF, 0xBB, 0xBF], clearNecessary := false }

/-- A Unicode scalar value: a code point up to U+10FFFF that is not a
surrogate.  These are the runes that UTF-8 encodes. -/
def IsScalar (r : Int) : Prop :=
  0 ≤ r ∧ r ≤ 0x10FFFF ∧ ¬ (0xD800 ≤ r ∧ r ≤ 0xDFFF)

/-- The session of the one word `アイ` after the key of the byte order mark. -/
def sessionAiBom : State :=
  { words := [bytesOf "アイ"],
    sessionWords :=
      [ { kana := [{ kana := 0x30A2, state := KanaActive },
                   { kana := 0x30A4, state := KanaInactive }],
          typed := false, active := true } ],
    activeIndex := 0, currentInput := [0xEF, 0xBB, 0xBF], clearNecessary := false }

/-- The session of the one word `アイ` after the key of the byte order mark and
the key `a`. -/
def sessionAiBomA : State :=
  { words := [bytesOf "アイ"],
    sessionWords :=
      [ { kana := [{ kana := 0x30A2, state := KanaCorrect },
                   { kana := 0x30A4, state := KanaActive }],
          typed := false, active := true } ],
    activeIndex := 0, currentInput := [0xEF, 0xBB, 0xBF, 0x61], clearNecessary := false }

/-- The session `sessionTwoWords` after the keys `a`, `k`. -/
def sessionTwoWordsNextK : State :=
  { words := [bytesOf "ア", bytesOf "イ"],
    sessionWords :=
      [ { kana := [{ kana := 0x30A2, state := KanaActive }], typed := true, active := false },
        { kana := [{ kana := 0x30A4, state := KanaActive }], typed := false, active := true } ],
    activeIndex := 1, currentInput := bytesOf "k", clearNecessary := true }

/-! ## Lemmas on the loop of `handleInput` -/

theorem wordAt_eq_some (ws : List StateWord) (i : Int) (w : StateWord) :
    wordAt ws i = some w ↔ 0 ≤ i ∧ ws[i.toNat]? = some w := by
  unfold wordAt
  by_cases h : 0 ≤ i <;> simp [h]

theorem commonLen_cons (a b : Rune) (as bs : List Rune) :
    commonLen (a :: as) (b :: bs) = if a = b then commonLen as bs + 1 else 0 := rfl

theorem commonLen_nil_left (w : List Rune) : commonLen [] w = 0 := by
  cases w <;> rfl

theorem commonLen_le_left (t w : List Rune) : commonLen t w ≤ t.length := by
  induction t generalizing w with
  | nil => simp [commonLen_nil_left]
  | cons a as ih =>
    cases w with
    | nil => simp [commonLen]
    | cons b bs =>
      rw [commonLen_cons]
      split
      · have := ih bs
        simp
        omega
      · simp

theorem map_kana_set (kana : List Kana) (j : Nat) (k : Kana) (s : KanaState)
    (h : kana[j]? = some k) :
    (kana.set j { kana := k.kana, state := s }).map Kana.kana = kana.map Kana.kana := by
  apply List.ext_getElem?
  intro n
  rw [List.map_set, List.getElem?_set]
  by_cases hjn : j = n
  · subst hjn
    obtain ⟨hlt, hk⟩ := List.getElem?_eq_some.mp h
    subst hk
    simp [hlt]
  · simp [hjn]

theorem matchLen_congr (t : List Rune) (kana kana2 : List Kana) (i : Nat)
    (h : kana2.map Kana.kana = kana.map Kana.kana) : matchLen t kana2 i = matchLen t kana i := by
  unfold matchLen
  rw [h]

theorem matchLen_cons (r : Rune) (rs : List Rune) (kana : List Kana) (i : Nat) (k : Kana)
    (h : kana[i]? = some k) :
    matchLen (r :: rs) kana i = if k.kana = r then matchLen rs kana (i + 1) + 1 else 0 := by
  obtain ⟨hlt, hk⟩ := List.getElem?_eq_some.mp h
  have hlt2 : i < (kana.map Kana.kana).length := by simpa using hlt
  unfold matchLen
  rw [List.drop_eq_getElem_cons hlt2, commonLen_cons]
  simp only [List.getElem_map, hk]
  by_cases hr : k.kana = r
  · simp [hr]
  · have hr2 : ¬ r = k.kana := fun e => hr e.symm
    simp [hr, hr2]

theorem stateAt_set_self (kana : List Kana) (j : Nat) (k : Kana) (h : j < kana.length) :
    stateAt (kana.set j k) j = some k.state := by
  simp [stateAt, List.getElem?_set_self h]

theorem matchKana_stops (deps : Deps) (t : List Rune) :
    ∀ (kana : List Kana) (i : Nat),
      i + matchLen t kana i < kana.length →
      ∃ kana', matchKana deps t kana i = some kana' ∧
        kana'.map Kana.kana = kana.map Kana.kana ∧
        (∀ j, j < i → kana'[j]? = kana[j]?) ∧
        (∀ j, i ≤ j → j < i + matchLen t kana i → stateAt kana' j = some KanaCorrect) ∧
        (∀ r, t[matchLen t kana i]? = some r →
          stateAt kana' (i + matchLen t kana i) =
            some (if deps.IsKatakana r then KanaIncorrect else KanaActive)) ∧
        (matchLen t kana i = t.length → 0 < matchLen t kana i →
          stateAt kana' (i + matchLen t kana i) = some KanaActive) ∧
        (t = [] → kana' = kana) ∧
        (∀ j, i + matchLen t kana i < j → kana'[j]? = kana[j]?) := by
  induction t with
  | nil =>
    intro kana i _
    have h0 : matchLen [] kana i = 0 := commonLen_nil_left _
    refine ⟨kana, rfl, rfl, fun _ _ => rfl, ?_, ?_, ?_, fun _ => rfl, fun _ _ => rfl⟩
    · intro j h1 h2
      omega
    · intro r h
      simp [h0] at h
    · intro _ h
      omega
  | cons r rs ih =>
    intro kana i hlt
    have hi : i < kana.length := by omega
    have hget : kana[i]? = some kana[i] := List.getElem?_eq_getElem hi
    have hlen := matchLen_cons r rs kana i kana[i] hget
    by_cases hr : kana[i].kana = r
    · -- the rune matches: lines 134-136
      rw [if_pos hr] at hlen
      subst hr
      have hi1 : i + 1 < kana.length := by omega
      have hget1 : (kana.set i { kana := kana[i].kana, state := KanaCorrect })[i + 1]? = some kana[i + 1] := by
        rw [List.getElem?_set_ne (by omega)]
        exact List.getElem?_eq_getElem hi1
      have hmap1 := map_kana_set kana i kana[i] KanaCorrect hget
      have hmap2 := map_kana_set _ (i + 1) kana[i + 1] KanaActive hget1
      have hcongr := matchLen_congr rs kana
        ((kana.set i { kana := kana[i].kana, state := KanaCorrect }).set (i + 1)
          { kana := kana[i + 1].kana, state := KanaActive }) (i + 1) (hmap2.trans hmap1)
      have hlt2 : i + 1 + matchLen rs
          ((kana.set i { kana := kana[i].kana, state := KanaCorrect }).set (i + 1)
            { kana := kana[i + 1].kana, state := KanaActive }) (i + 1) <
          ((kana.set i { kana := kana[i].kana, state := KanaCorrect }).set (i + 1)
            { kana := kana[i + 1].kana, state := KanaActive }).length := by
        rw [hcongr]
        simp only [List.length_set]
        omega
      obtain ⟨kana', hrun, p1, p2, p3, p4, p5, p6, p7⟩ := ih _ (i + 1) hlt2
      rw [hcongr] at p3 p4 p5 p7
      refine ⟨kana', ?_, ?_, ?_, ?_, ?_, ?_, ?_, ?_⟩
      · simp only [matchKana, hget, if_true, hget1]
        exact hrun
      · rw [p1, hmap2, hmap1]
      · intro j hj
        rw [p2 j (by omega), List.getElem?_set_ne (by omega), List.getElem?_set_ne (by omega)]
      · intro j h1 h2
        by_cases hji : j = i
        · subst hji
          unfold stateAt
          rw [p2 j (by omega), List.getElem?_set_ne (by omega), List.getElem?_set_self hi]
          rfl
        · exact p3 j (by omega) (by omega)
      · intro r' hr'
        rw [hlen] at hr' ⊢
        have := p4 r' (by simpa using hr')
        rw [← this]
        congr 1
        omega
      · intro h1 _
        rw [hlen] at h1 ⊢
        have hk : matchLen rs kana (i + 1) = rs.length := by simpa using h1
        by_cases hpos : 0 < matchLen rs kana (i + 1)
        · have := p5 hk hpos
          rw [← this]
          congr 1
          omega
        · have hnil : rs = [] := by
            have : rs.length = 0 := by omega
            exact List.length_eq_zero.mp this
          rw [p6 hnil]
          have h0 : matchLen rs kana (i + 1) = 0 := by omega
          rw [h0]
          have := stateAt_set_self (kana.set i { kana := kana[i].kana, state := KanaCorrect }) (i + 1)
            { kana := kana[i + 1].kana, state := KanaActive } (by simpa using hi1)
          simpa using this
      · intro h
        exact absurd h (List.cons_ne_nil _ _)
      · intro j hj
        rw [hlen] at hj
        rw [p7 j (by omega), List.getElem?_set_ne (by omega), List.getElem?_set_ne (by omega)]
    · -- the rune differs: lines 137-143
      rw [if_neg hr] at hlen
      by_cases hk : deps.IsKatakana r = true
      · refine ⟨kana.set i { kana := kana[i].kana, state := KanaIncorrect }, ?_, ?_, ?_, ?_, ?_, ?_, ?_, ?_⟩
        · simp [matchKana, hget, hr, hk]
        · exact map_kana_set kana i kana[i] KanaIncorrect hget
        · intro j hj
          rw [List.getElem?_set_ne (by omega)]
        · intro j h1 h2
          omega
        · intro r' hr'
          rw [hlen] at hr' ⊢
          have : r = r' := by simpa using hr'
          subst this
          rw [hk]
          exact stateAt_set_self kana i _ hi
        · intro h1 h2
          omega
        · intro h
          exact absurd h (List.cons_ne_nil _ _)
        · intro j hj
          rw [List.getElem?_set_ne (by omega)]
      · refine ⟨kana.set i { kana := kana[i].kana, state := KanaActive }, ?_, ?_, ?_, ?_, ?_, ?_, ?_, ?_⟩
        · simp [matchKana, hget, hr, hk]
        · exact map_kana_set kana i kana[i] KanaActive hget
        · intro j hj
          rw [List.getElem?_set_ne (by omega)]
        · intro j h1 h2
          omega
        · intro r' hr'
          rw [hlen] at hr' ⊢
          have : r = r' := by simpa using hr'
          subst this
          simp only [hk]
          exact stateAt_set_self kana i _ hi
        · intro h1 h2
          omega
        · intro h
          exact absurd h (List.cons_ne_nil _ _)
        · intro j hj
          rw [List.getElem?_set_ne (by omega)]

theorem matchKana_runes (deps : Deps) (t : List Rune) :
    ∀ (kana kana' : List Kana) (i : Nat), matchKana deps t kana i = some kana' →
      kana'.map Kana.kana = kana.map Kana.kana := by
  induction t with
  | nil =>
    intro kana kana' i h
    simp only [matchKana, Option.some.injEq] at h
    rw [h]
  | cons r rs ih =>
    intro kana kana' i h
    simp only [matchKana] at h
    cases hk : kana[i]? with
    | none => simp [hk] at h
    | some k =>
      simp only [hk] at h
      by_cases hr : k.kana = r
      · simp only [hr, if_true] at h
        cases hk1 : (kana.set i { kana := r, state := KanaCorrect })[i + 1]? with
        | none => simp [hk1] at h
        | some k1 =>
          simp only [hk1] at h
          rw [ih _ _ _ h, map_kana_set _ _ _ _ hk1, ← hr, map_kana_set _ _ _ _ hk]
      · simp only [hr, if_false] at h
        cases hkat : deps.IsKatakana r with
        | true =>
          simp only [hkat, if_true, Option.some.injEq] at h
          rw [← h, map_kana_set _ _ _ _ hk]
        | false =>
          simp only [hkat, Bool.false_eq_true, if_false, Option.some.injEq] at h
          rw [← h, map_kana_set _ _ _ _ hk]

theorem getElem?_same_rune (ks ms : List Kana) (i : Nat) (k : Kana)
    (hmap : ms.map Kana.kana = ks.map Kana.kana) (hk : ks[i]? = some k) :
    ∃ m, ms[i]? = some m ∧ m.kana = k.kana := by
  have h1 : (ms.map Kana.kana)[i]? = (ks.map Kana.kana)[i]? := by rw [hmap]
  rw [List.getElem?_map, List.getElem?_map, hk] at h1
  cases hm : ms[i]? with
  | none => simp [hm] at h1
  | some m =>
    refine ⟨m, rfl, ?_⟩
    simpa [hm] using h1

/-- The loop run on two kana lists with the same runes: it returns on both or
on neither, and at each position it either leaves the same kana in both, or
leaves both untouched. -/
theorem matchKana_same_runes (deps : Deps) (t : List Rune) :
    ∀ (ks ms ks' : List Kana) (i : Nat), ms.map Kana.kana = ks.map Kana.kana →
      matchKana deps t ks i = some ks' →
      ∃ ms', matchKana deps t ms i = some ms' ∧
        ∀ j : Nat, ks'[j]? = ms'[j]? ∨ (ks'[j]? = ks[j]? ∧ ms'[j]? = ms[j]?) := by
  induction t with
  | nil =>
    intro ks ms ks' i _ h
    simp only [matchKana, Option.some.injEq] at h
    subst h
    exact ⟨ms, rfl, fun j => Or.inr ⟨rfl, rfl⟩⟩
  | cons r rs ih =>
    intro ks ms ks' i hmap h
    simp only [matchKana] at h
    cases hk : ks[i]? with
    | none => simp [hk] at h
    | some k =>
      simp only [hk] at h
      obtain ⟨m, hm, hmk⟩ := getElem?_same_rune ks ms i k hmap hk
      have hi : i < ks.length := (List.getElem?_eq_some.mp hk).1
      have hi' : i < ms.length := (List.getElem?_eq_some.mp hm).1
      by_cases hr : k.kana = r
      · simp only [hr, if_true] at h
        cases hk1 : (ks.set i { kana := r, state := KanaCorrect })[i + 1]? with
        | none => simp [hk1] at h
        | some k1 =>
          simp only [hk1] at h
          have hmap1 : (ms.set i { kana := r, state := KanaCorrect }).map Kana.kana =
              (ks.set i { kana := r, state := KanaCorrect }).map Kana.kana := by
            rw [List.map_set, List.map_set, hmap]
          obtain ⟨m1, hm1, hmk1⟩ := getElem?_same_rune _ _ (i + 1) k1 hmap1 hk1
          have hi1 : i + 1 < ks.length := by
            have := (List.getElem?_eq_some.mp hk1).1
            simpa using this
          have hi1' : i + 1 < ms.length := by
            have := (List.getElem?_eq_some.mp hm1).1
            simpa using this
          have hmap2 :
              ((ms.set i { kana := r, state := KanaCorrect }).set (i + 1)
                { kana := m1.kana, state := KanaActive }).map Kana.kana =
              ((ks.set i { kana := r, state := KanaCorrect }).set (i + 1)
                { kana := k1.kana, state := KanaActive }).map Kana.kana := by
            simp only [List.map_set, hmap, hmk1]
          obtain ⟨ms', hrun, hpos⟩ := ih _ _ _ _ hmap2 h
          refine ⟨ms', ?_, ?_⟩
          · simp only [matchKana, hm, hmk, hr, if_true, hm1]
            exact hrun
          · intro j
            rcases hpos j with heq | ⟨h1, h2⟩
            · exact Or.inl heq
            · by_cases hj1 : j = i + 1
              · left
                rw [h1, h2, hj1, List.getElem?_set_self (by simpa using hi1),
                  List.getElem?_set_self (by simpa using hi1'), hmk1]
              · by_cases hj : j = i
                · left
                  rw [h1, h2, hj, List.getElem?_set_ne (show i + 1 ≠ i by omega),
                    List.getElem?_set_ne (show i + 1 ≠ i by omega),
                    List.getElem?_set_self hi, List.getElem?_set_self hi']
                · right
                  rw [h1, h2, List.getElem?_set_ne (show i + 1 ≠ j by omega),
                    List.getElem?_set_ne (show i + 1 ≠ j by omega),
                    List.getElem?_set_ne (show i ≠ j by omega),
                    List.getElem?_set_ne (show i ≠ j by omega)]
                  exact ⟨rfl, rfl⟩
      · simp only [hr, if_false] at h
        cases hkat : deps.IsKatakana r with
        | true =>
          simp only [hkat, if_true, Option.some.injEq] at h
          subst h
          refine ⟨ms.set i { kana := m.kana, state := KanaIncorrect }, ?_, ?_⟩
          · simp [matchKana, hm, hmk, hr, hkat]
          · intro j
            by_cases hj : j = i
            · left
              rw [hj, List.getElem?_set_self hi, List.getElem?_set_self hi', hmk]
            · right
              rw [List.getElem?_set_ne (show i ≠ j by omega),
                List.getElem?_set_ne (show i ≠ j by omega)]
              exact ⟨rfl, rfl⟩
        | false =>
          simp only [hkat, Bool.false_eq_true, if_false, Option.some.injEq] at h
          subst h
          refine ⟨ms.set i { kana := m.kana, state := KanaActive }, ?_, ?_⟩
          · simp [matchKana, hm, hmk, hr, hkat]
          · intro j
            by_cases hj : j = i
            · left
              rw [hj, List.getElem?_set_self hi, List.getElem?_set_self hi', hmk]
            · right
              rw [List.getElem?_set_ne (show i ≠ j by omega),
                List.getElem?_set_ne (show i ≠ j by omega)]
              exact ⟨rfl, rfl⟩

/-! ## Lemmas on `handleInput` -/

theorem editInput_sessionWords (state : State) (input : KeyEvent) :
    (editInput state input).sessionWords = state.sessionWords := by
  unfold editInput
  split_ifs <;> rfl

theorem editInput_activeIndex (state : State) (input : KeyEvent) :
    (editInput state input).activeIndex = state.activeIndex := by
  unfold editInput
  split_ifs <;> rfl

theorem editInput_words (state : State) (input : KeyEvent) :
    (editInput state input).words = state.words := by
  unfold editInput
  split_ifs <;> rfl

/-- What a returning call of `handleInput` has done: either the completion
branch (lines 117-127) or the loop (lines 129-144). -/
theorem handleInput_some (deps : Deps) (state state' : State) (input : KeyEvent)
    (h : handleInput deps state input = some state') :
    ∃ word, wordAt state.sessionWords state.activeIndex = some word ∧
      ((deps.RomajiToKatakana (updatedInput state input) = word.getNormalString ∧
          state'.activeIndex = state.activeIndex + 1 ∧ state'.currentInput = [] ∧
          state'.words = state.words ∧
          ((state.activeIndex + 1 < state.sessionWords.length ∧
              ∃ next k ks, state.sessionWords[state.activeIndex.toNat + 1]? = some next ∧
                next.kana = k :: ks ∧
                state'.sessionWords =
                  (state.sessionWords.set state.activeIndex.toNat
                    { kana := word.kana, typed := true, active := false }).set
                    (state.activeIndex.toNat + 1)
                    { kana := { kana := k.kana, state := KanaActive } :: ks,
                      typed := next.typed, active := true } ∧
                state'.clearNecessary = true) ∨
            ((state.sessionWords.length : Int) ≤ state.activeIndex + 1 ∧
              state'.sessionWords =
                state.sessionWords.set state.activeIndex.toNat
                  { kana := word.kana, typed := true, active := false } ∧
              state'.clearNecessary = (editInput state input).clearNecessary))) ∨
        (deps.RomajiToKatakana (updatedInput state input) ≠ word.getNormalString ∧
          state'.activeIndex = state.activeIndex ∧
          state'.currentInput = updatedInput state input ∧
          state'.words = state.words ∧
          state'.clearNecessary = (editInput state input).clearNecessary ∧
          ∃ kana,
            matchKana deps (scanRunes (deps.RomajiToKatakana (updatedInput state input)))
              word.kana 0 = some kana ∧
            state'.sessionWords =
              state.sessionWords.set state.activeIndex.toNat
                { kana := kana, typed := word.typed, active := word.active })) := by
  unfold handleInput at h
  simp only [editInput_sessionWords, editInput_activeIndex] at h
  cases hw : wordAt state.sessionWords state.activeIndex with
  | none => simp [hw] at h
  | some word =>
    refine ⟨word, rfl, ?_⟩
    simp only [hw] at h
    obtain ⟨h0, hget⟩ := (wordAt_eq_some _ _ _).mp hw
    have htoNat : (state.activeIndex + 1).toNat = state.activeIndex.toNat + 1 := by omega
    by_cases hdone : deps.RomajiToKatakana (editInput state input).currentInput =
        word.getNormalString
    · left
      simp only [hdone, if_true, List.length_set] at h
      refine ⟨hdone, ?_⟩
      by_cases hnext : state.activeIndex + 1 < (state.sessionWords.length : Int)
      · simp only [hnext, if_true] at h
        have hnext0 : 0 ≤ state.activeIndex + 1 := by omega
        simp only [wordAt, hnext0, if_true, htoNat] at h
        rw [List.getElem?_set_ne (by omega)] at h
        cases hn : state.sessionWords[state.activeIndex.toNat + 1]? with
        | none => simp [hn] at h
        | some next =>
          simp only [hn] at h
          cases hk : next.kana with
          | nil => simp [hk] at h
          | cons k ks =>
            simp only [hk, Option.some.injEq] at h
            subst h
            exact ⟨rfl, rfl, editInput_words _ _,
              Or.inl ⟨hnext, next, k, ks, rfl, hk, rfl, rfl⟩⟩
      · simp only [hnext, if_false, Option.some.injEq] at h
        subst h
        exact ⟨rfl, rfl, editInput_words _ _, Or.inr ⟨by omega, rfl, rfl⟩⟩
    · right
      simp only [hdone, if_false] at h
      refine ⟨hdone, ?_⟩
      cases hm : matchKana deps
          (scanRunes (deps.RomajiToKatakana (editInput state input).currentInput)) word.kana 0 with
      | none => simp [hm] at h
      | some kana =>
        simp only [hm, Option.some.injEq] at h
        subst h
        exact ⟨rfl, rfl, editInput_words _ _, rfl, kana, hm, rfl⟩

theorem handleInput_loop_returns (deps : Deps) (state : State) (input : KeyEvent)
    (word : StateWord) (kana : List Kana)
    (hword : wordAt state.sessionWords state.activeIndex = some word)
    (hdone : deps.RomajiToKatakana (updatedInput state input) ≠ word.getNormalString)
    (hloop : matchKana deps (scanRunes (deps.RomajiToKatakana (updatedInput state input)))
      word.kana 0 = some kana) :
    ∃ state', handleInput deps state input = some state' := by
  unfold updatedInput at hdone hloop
  unfold handleInput
  simp only [editInput_sessionWords, editInput_activeIndex, hword, hdone, if_false, hloop]
  exact ⟨_, rfl⟩

theorem handleInput_complete_returns (deps : Deps) (state : State) (input : KeyEvent)
    (word : StateWord)
    (hword : wordAt state.sessionWords state.activeIndex = some word)
    (hdone : deps.RomajiToKatakana (updatedInput state input) = word.getNormalString)
    (hnext : ∀ next, wordAt state.sessionWords (state.activeIndex + 1) = some next →
      next.kana ≠ []) :
    ∃ state', handleInput deps state input = some state' := by
  unfold updatedInput at hdone
  obtain ⟨h0, hget⟩ := (wordAt_eq_some _ _ _).mp hword
  have htoNat : (state.activeIndex + 1).toNat = state.activeIndex.toNat + 1 := by omega
  unfold handleInput
  simp only [editInput_sessionWords, editInput_activeIndex, hword, hdone, if_true,
    List.length_set]
  by_cases hlt : state.activeIndex + 1 < (state.sessionWords.length : Int)
  · have hnext0 : 0 ≤ state.activeIndex + 1 := by omega
    have hlt2 : state.activeIndex.toNat + 1 < state.sessionWords.length := by omega
    have hn : state.sessionWords[state.activeIndex.toNat + 1]? =
        some state.sessionWords[state.activeIndex.toNat + 1] := List.getElem?_eq_getElem hlt2
    have hne := hnext state.sessionWords[state.activeIndex.toNat + 1]
      ((wordAt_eq_some _ _ _).mpr ⟨hnext0, by rw [htoNat]; exact hn⟩)
    simp only [hlt, if_true, wordAt, hnext0, htoNat]
    rw [List.getElem?_set_ne (by omega), hn]
    cases hk : (state.sessionWords[state.activeIndex.toNat + 1]).kana with
    | nil => exact absurd hk hne
    | cons k ks =>
      simp only [hk]
      exact ⟨_, rfl⟩
  · simp only [hlt, if_false]
    exact ⟨_, rfl⟩

theorem handleInput_loop_eq (deps : Deps) (state : State) (input : KeyEvent)
    (word : StateWord) (kana : List Kana)
    (hword : wordAt state.sessionWords state.activeIndex = some word)
    (hdone : deps.RomajiToKatakana (updatedInput state input) ≠ word.getNormalString)
    (hloop : matchKana deps (scanRunes (deps.RomajiToKatakana (updatedInput state input)))
      word.kana 0 = some kana) :
    handleInput deps state input =
      some { words := state.words,
             sessionWords := state.sessionWords.set state.activeIndex.toNat
               { kana := kana, typed := word.typed, active := word.active },
             activeIndex := state.activeIndex,
             currentInput := updatedInput state input,
             clearNecessary := (editInput state input).clearNecessary } := by
  unfold updatedInput at hdone hloop ⊢
  unfold handleInput
  simp only [editInput_sessionWords, editInput_activeIndex, editInput_words, hword, hdone,
    if_false, hloop]

theorem updatedInput_key (state : State) (key : Nat) (c : Int) (h1 : 1 ≤ c) (h2 : c ≤ 0x7F) :
    updatedInput state { Key := key, Rune := c } = state.currentInput ++ [c.toNat] := by
  have hc : ¬ c = 0 := by omega
  have hneg : ¬ c < 0 := by omega
  have hle : c.toNat ≤ 0x7F := by omega
  simp [updatedInput, editInput, hc, encodeRune, hneg, hle]

theorem updatedInput_backspace (state : State) :
    updatedInput state { Key := KeyBackspace, Rune := 0 } =
      state.currentInput.take (state.currentInput.length - 1) := by
  unfold updatedInput editInput
  by_cases h : 0 ≤ (state.currentInput.length : Int) - 1
  · simp [h]
  · have h0 : state.currentInput.length = 0 := by omega
    have hnil : state.currentInput = [] := List.length_eq_zero.mp h0
    simp [h, hnil]

theorem handleInput_finished (deps : Deps) (state : State) (input : KeyEvent)
    (h : state.activeIndex = state.sessionWords.length) :
    handleInput deps state input = none := by
  have hnone : wordAt state.sessionWords state.activeIndex = none := by
    unfold wordAt
    rw [h]
    simp
  unfold handleInput
  simp only [editInput_sessionWords, editInput_activeIndex, hnone]

/-! ## Lemmas on session generation and the active-word invariant -/

theorem fillWords_spec (words : List GoString) (rnd : Nat → Nat) (n : Nat) :
    ∀ (i : Nat) (sw sw' : List StateWord), fillWords words rnd n i sw = some sw' →
      sw'.length = sw.length ∧
      ∀ (j : Nat) (w : StateWord), sw'[j]? = some w →
        (i ≤ j → j < i + n → ∃ word ∈ words, w = newStateWord word) ∧
        ((j < i ∨ i + n ≤ j) → sw[j]? = some w) := by
  induction n with
  | zero =>
    intro i sw sw' h
    simp only [fillWords, Option.some.injEq] at h
    subst h
    refine ⟨rfl, fun j w hw => ⟨fun h1 h2 => ?_, fun _ => hw⟩⟩
    omega
  | succ n ih =>
    intro i sw sw' h
    simp only [fillWords] at h
    by_cases hempty : words.length = 0
    · simp [hempty] at h
    · simp only [hempty, if_false] at h
      cases hword : words[rnd i % words.length]? with
      | none => simp [hword] at h
      | some word =>
        simp only [hword] at h
        by_cases hi : i < sw.length
        · simp only [hi, if_true] at h
          obtain ⟨hlen, hall⟩ := ih (i + 1) _ sw' h
          refine ⟨by simpa using hlen, fun j w hw => ?_⟩
          obtain ⟨hin, hout⟩ := hall j w hw
          refine ⟨fun h1 h2 => ?_, fun h3 => ?_⟩
          · by_cases hji : j = i
            · have := hout (Or.inl (by omega))
              rw [hji, List.getElem?_set_self hi] at this
              exact ⟨word, List.getElem?_mem hword, (Option.some.inj this).symm⟩
            · exact hin (by omega) (by omega)
          · have := hout (by omega)
            rwa [List.getElem?_set_ne (show i ≠ j by omega)] at this
        · simp [hi] at h

theorem newSession_inv (words : List GoString) (n : Nat) (rnd : Nat → Nat) (state : State)
    (h : newSession words n rnd = some state) : ActiveInv state := by
  unfold newSession selectRandomWords at h
  simp only [initialState, Int.toNat_ofNat] at h
  cases hfill : fillWords words rnd n 0
      (List.replicate n { kana := [], typed := false, active := false }) with
  | none => simp [hfill] at h
  | some sw =>
    simp only [hfill] at h
    obtain ⟨hlen, hall⟩ := fillWords_spec words rnd n 0 _ sw hfill
    simp only [List.length_replicate] at hlen
    cases sw with
    | nil => simp at h
    | cons first others =>
      cases hk : first.kana with
      | nil => simp [hk] at h
      | cons k ks =>
        simp only [hk, Option.some.injEq] at h
        subst h
        refine ⟨le_refl _, by simp; omega, fun i w hw => ?_⟩
        cases i with
        | zero =>
          simp only [List.getElem?_cons_zero, Option.some.injEq] at hw
          subst hw
          obtain ⟨word, _, hfirst⟩ :=
            (hall 0 first (by simp)).1 (Nat.le_refl 0) (by simp at hlen; omega)
          simp [hfirst, newStateWord]
        | succ i =>
          simp only [List.getElem?_cons_succ] at hw
          obtain ⟨word, _, hw2⟩ := (hall (i + 1) w (by simpa using hw)).1 (Nat.zero_le _) (by
            have := (List.getElem?_eq_some.mp hw).1
            simp at hlen
            omega)
          simp only [hw2, newStateWord]
          constructor
          · constructor
            · intro hf
              exact absurd hf (by simp)
            · intro hf
              simp only [Nat.cast_add, Nat.cast_one] at hf
              omega
          · constructor
            · intro hf
              exact absurd hf (by simp)
            · intro hf
              simp only [Nat.cast_add, Nat.cast_one] at hf
              omega

theorem handleInput_inv (deps : Deps) (state state' : State) (input : KeyEvent)
    (hinv : ActiveInv state) (hrun : handleInput deps state input = some state') :
    ActiveInv state' := by
  obtain ⟨word, hword, hcase⟩ := handleInput_some deps state state' input hrun
  obtain ⟨h0, hget⟩ := (wordAt_eq_some _ _ _).mp hword
  have hlt : state.activeIndex.toNat < state.sessionWords.length :=
    (List.getElem?_eq_some.mp hget).1
  obtain ⟨_, _, hall⟩ := hinv
  rcases hcase with ⟨_, hidx, _, _, hbranch⟩ | ⟨_, hidx, _, _, _, kana, _, hws⟩
  · rcases hbranch with ⟨_, next, k, ks, hn, _, hws, _⟩ | ⟨_, hws, _⟩
    · have hlt1 : state.activeIndex.toNat + 1 < state.sessionWords.length :=
        (List.getElem?_eq_some.mp hn).1
      refine ⟨by omega, by rw [hidx, hws]; simp; omega, fun i w hw => ?_⟩
      rw [hws] at hw
      rw [hidx]
      by_cases hi1 : i = state.activeIndex.toNat + 1
      · rw [hi1, List.getElem?_set_self (by simpa using hlt1)] at hw
        cases hw
        have hnt := (hall _ next hn).1
        refine ⟨⟨fun hf => ?_, fun hf => ?_⟩, ⟨fun _ => ?_, fun _ => rfl⟩⟩
        · have := hnt.mp hf
          omega
        · omega
        · omega
      · rw [List.getElem?_set_ne (show state.activeIndex.toNat + 1 ≠ i by omega)] at hw
        by_cases hi : i = state.activeIndex.toNat
        · rw [hi, List.getElem?_set_self hlt] at hw
          cases hw
          refine ⟨⟨fun _ => ?_, fun _ => rfl⟩, ⟨fun hf => ?_, fun hf => ?_⟩⟩
          · omega
          · exact absurd hf (by simp)
          · omega
        · rw [List.getElem?_set_ne (show state.activeIndex.toNat ≠ i by omega)] at hw
          obtain ⟨ht, ha⟩ := hall i w hw
          refine ⟨⟨fun hf => ?_, fun hf => ?_⟩, ⟨fun hf => ?_, fun hf => ?_⟩⟩
          · have := ht.mp hf
            omega
          · exact ht.mpr (by omega)
          · have := ha.mp hf
            omega
          · omega
    · refine ⟨by omega, by rw [hidx, hws]; simp; omega, fun i w hw => ?_⟩
      rw [hws] at hw
      rw [hidx]
      by_cases hi : i = state.activeIndex.toNat
      · rw [hi, List.getElem?_set_self hlt] at hw
        cases hw
        refine ⟨⟨fun _ => ?_, fun _ => rfl⟩, ⟨fun hf => ?_, fun hf => ?_⟩⟩
        · omega
        · exact absurd hf (by simp)
        · omega
      · rw [List.getElem?_set_ne (show state.activeIndex.toNat ≠ i by omega)] at hw
        have hilt : i < state.sessionWords.length := (List.getElem?_eq_some.mp hw).1
        obtain ⟨ht, ha⟩ := hall i w hw
        refine ⟨⟨fun hf => ?_, fun hf => ?_⟩, ⟨fun hf => ?_, fun hf => ?_⟩⟩
        · have := ht.mp hf
          omega
        · exact ht.mpr (by omega)
        · have := ha.mp hf
          omega
        · omega
  · refine ⟨by omega, by rw [hidx, hws]; simp; omega, fun i w hw => ?_⟩
    rw [hws] at hw
    rw [hidx]
    by_cases hi : i = state.activeIndex.toNat
    · subst hi
      rw [List.getElem?_set_self hlt] at hw
      cases hw
      exact hall _ word hget
    · rw [List.getElem?_set_ne (show state.activeIndex.toNat ≠ i by omega)] at hw
      exact hall i w hw

theorem handleInputs_inv (deps : Deps) (inputs : List KeyEvent) :
    ∀ (state state' : State), ActiveInv state → handleInputs deps state inputs = some state' →
      ActiveInv state' := by
  induction inputs with
  | nil =>
    intro state state' hinv h
    simp only [handleInputs, Option.some.injEq] at h
    rw [← h]
    exact hinv
  | cons input inputs ih =>
    intro state state' hinv h
    simp only [handleInputs] at h
    cases hstep : handleInput deps state input with
    | none => simp [hstep] at h
    | some state1 =>
      simp only [hstep] at h
      exact ih state1 state' (handleInput_inv deps state state1 input hinv hstep) h

/-! ## Lemmas on scanned sessions -/

theorem encodeRune_ne_nil (r : Rune) : encodeRune r ≠ [] := by
  unfold encodeRune
  simp only
  split_ifs <;> simp

theorem encodeRunes_cons_ne_nil (r : Rune) (rs : List Rune) : encodeRunes (r :: rs) ≠ [] := by
  unfold encodeRunes
  intro h
  exact encodeRune_ne_nil r (List.append_eq_nil.mp h).1

theorem set_getElem?_self (ws : List StateWord) (i : Nat) (w : StateWord)
    (h : ws[i]? = some w) : ws.set i w = ws := by
  apply List.ext_getElem?
  intro j
  by_cases hj : i = j
  · subst hj
    rw [List.getElem?_set_self (List.getElem?_eq_some.mp h).1, h]
  · rw [List.getElem?_set_ne hj]

theorem settled_of_empty_buffer (deps : Deps) (state : State)
    (hempty : deps.RomajiToKatakana [] = [])
    (hbuf : state.currentInput = [])
    (hkana : ∀ word, wordAt state.sessionWords state.activeIndex = some word → word.kana ≠ []) :
    Settled deps state := by
  intro word hword
  rw [hbuf, hempty]
  have hne := hkana word hword
  constructor
  · unfold StateWord.getNormalString
    cases hk : word.kana with
    | nil => exact absurd hk hne
    | cons k ks =>
      intro h
      exact encodeRunes_cons_ne_nil _ _ h.symm
  · rfl

theorem newSession_settled (deps : Deps) (words : List GoString) (n : Nat) (rnd : Nat → Nat)
    (state : State) (hempty : deps.RomajiToKatakana [] = [])
    (h : newSession words n rnd = some state) : Settled deps state := by
  unfold newSession selectRandomWords at h
  simp only [initialState, Int.toNat_ofNat] at h
  cases hfill : fillWords words rnd n 0
      (List.replicate n { kana := [], typed := false, active := false }) with
  | none => simp [hfill] at h
  | some sw =>
    simp only [hfill] at h
    cases sw with
    | nil => simp at h
    | cons first others =>
      cases hk : first.kana with
      | nil => simp [hk] at h
      | cons k ks =>
        simp only [hk, Option.some.injEq] at h
        subst h
        apply settled_of_empty_buffer deps _ hempty rfl
        intro word hword
        simp only [wordAt, le_refl, if_true, Int.toNat_zero, List.getElem?_cons_zero,
          Option.some.injEq] at hword
        subst hword
        simp

theorem handleInput_settled (deps : Deps) (state state' : State) (input : KeyEvent)
    (hempty : deps.RomajiToKatakana [] = [])
    (hrun : handleInput deps state input = some state') : Settled deps state' := by
  obtain ⟨word, hword, hcase⟩ := handleInput_some deps state state' input hrun
  obtain ⟨h0, hget⟩ := (wordAt_eq_some _ _ _).mp hword
  have hlt : state.activeIndex.toNat < state.sessionWords.length :=
    (List.getElem?_eq_some.mp hget).1
  rcases hcase with ⟨_, hidx, hbuf, _, hbranch⟩ | ⟨hne, hidx, hbuf, _, _, kana, hloop, hws⟩
  · apply settled_of_empty_buffer deps _ hempty hbuf
    intro next' hnext'
    have htoNat : (state.activeIndex + 1).toNat = state.activeIndex.toNat + 1 := by omega
    rw [wordAt_eq_some, hidx, htoNat] at hnext'
    rcases hbranch with ⟨_, next, k, ks, hn, _, hws, _⟩ | ⟨hlast, hws, _⟩
    · have hlt1 : state.activeIndex.toNat + 1 < state.sessionWords.length :=
        (List.getElem?_eq_some.mp hn).1
      rw [hws, List.getElem?_set_self (by simpa using hlt1)] at hnext'
      have := hnext'.2
      cases this
      simp
    · rw [hws, List.getElem?_eq_none (by simp only [List.length_set]; omega)] at hnext'
      exact absurd hnext'.2 (by simp)
  · intro word' hword'
    rw [wordAt_eq_some, hidx, hws, List.getElem?_set_self hlt] at hword'
    have := hword'.2
    cases this
    rw [hbuf]
    have hrunes := matchKana_runes deps _ _ _ _ hloop
    constructor
    · unfold StateWord.getNormalString
      show deps.RomajiToKatakana (updatedInput state input) ≠ encodeRunes (kana.map Kana.kana)
      rw [hrunes]
      exact hne
    · obtain ⟨kana2, hloop2, hpos⟩ :=
        matchKana_same_runes deps _ word.kana kana kana 0 hrunes hloop
      have hsame : kana2 = kana := by
        apply List.ext_getElem?
        intro j
        rcases hpos j with h1 | ⟨_, h2⟩
        · exact h1.symm
        · exact h2
      rw [hsame] at hloop2
      exact hloop2

theorem handleInputs_settled (deps : Deps) (hempty : deps.RomajiToKatakana [] = [])
    (inputs : List KeyEvent) :
    ∀ (state state' : State), Settled deps state → handleInputs deps state inputs = some state' →
      Settled deps state' := by
  induction inputs with
  | nil =>
    intro state state' hs h
    simp only [handleInputs, Option.some.injEq] at h
    rw [← h]
    exact hs
  | cons input inputs ih =>
    intro state state' _ h
    simp only [handleInputs] at h
    cases hstep : handleInput deps state input with
    | none => simp [hstep] at h
    | some state1 =>
      simp only [hstep] at h
      exact ih state1 state' (handleInput_settled deps state state1 input hempty hstep) h

theorem editInput_ignored (state : State) (input : KeyEvent) (hrune : input.Rune = 0)
    (hkey : input.Key ≠ KeyBackspace ∨ state.currentInput = []) :
    editInput state input = state := by
  unfold editInput
  rcases hkey with hk | hb
  · simp [hrune, hk]
  · simp [hrune, hb]

theorem editInput_clearNecessary_backspace (state : State) (input : KeyEvent)
    (h : input.Rune = 0 ∧ input.Key = KeyBackspace ∧ state.currentInput ≠ []) :
    (editInput state input).clearNecessary = true := by
  obtain ⟨h1, h2, h3⟩ := h
  have hlen : 0 < state.currentInput.length := List.length_pos.mpr h3
  have hpos : 0 ≤ (state.currentInput.length : Int) - 1 := by omega
  simp [editInput, h1, h2, hpos]

theorem editInput_clearNecessary_other (state : State) (input : KeyEvent)
    (h : ¬ (input.Rune = 0 ∧ input.Key = KeyBackspace ∧ state.currentInput ≠ [])) :
    (editInput state input).clearNecessary = state.clearNecessary := by
  unfold editInput
  split_ifs with h1 h2 h3
  · exfalso
    apply h
    refine ⟨h1, h2, fun hnil => ?_⟩
    rw [hnil] at h3
    simp at h3
  · rfl
  · rfl
  · rfl

/-! ## Lemmas on `selectRandomWords` -/

theorem fillWords_returns (words : List GoString) (rnd : Nat → Nat) (hbank : words ≠ [])
    (n : Nat) :
    ∀ (i : Nat) (sw : List StateWord), i + n ≤ sw.length →
      ∃ sw', fillWords words rnd n i sw = some sw' := by
  induction n with
  | zero =>
    intro i sw _
    exact ⟨sw, rfl⟩
  | succ n ih =>
    intro i sw h
    have hlen : 0 < words.length := List.length_pos.mpr hbank
    have hne : ¬ words.length = 0 := by omega
    have hlt : rnd i % words.length < words.length := Nat.mod_lt _ hlen
    have hi : i < sw.length := by omega
    simp only [fillWords, hne, if_false, List.getElem?_eq_getElem hlt, hi, if_true]
    exact ih (i + 1) _ (by simp only [List.length_set]; omega)

theorem fillWords_empty_bank (rnd : Nat → Nat) (n i : Nat) (sw : List StateWord) :
    fillWords [] rnd (n + 1) i sw = none := by
  simp [fillWords]

theorem newStateWord_runes (word : GoString) :
    (newStateWord word).kana.map Kana.kana = scanRunes word := by
  simp [newStateWord, List.map_map, Function.comp_def]

theorem newStateWord_state (word : GoString) (j : Nat) (k : Kana)
    (h : (newStateWord word).kana[j]? = some k) : k.state = KanaInactive := by
  simp only [newStateWord, List.getElem?_map] at h
  cases hr : (scanRunes word)[j]? with
  | none => simp [hr] at h
  | some r =>
    simp only [hr, Option.map_some', Option.some.injEq] at h
    rw [← h]

/-- The shape of the session that `selectRandomWords` returns, when the bank
is not empty, its words have at least one scanned rune each, and the count is
positive and within the session length. -/
theorem selectRandomWords_returns (state : State) (n : Nat) (rnd : Nat → Nat)
    (hbank : state.words ≠ []) (hwords : ∀ word ∈ state.words, scanRunes word ≠ [])
    (hn : 0 < n) (hle : n ≤ state.sessionWords.length) :
    ∃ sw first others k ks word,
      fillWords state.words rnd n 0 state.sessionWords = some sw ∧
      sw = first :: others ∧ word ∈ state.words ∧ first = newStateWord word ∧
      first.kana = k :: ks ∧
      selectRandomWords state n rnd =
        some { words := state.words,
               sessionWords :=
                 { kana := { kana := k.kana, state := KanaActive } :: ks,
                   typed := first.typed, active := true } :: others,
               activeIndex := state.activeIndex, currentInput := state.currentInput,
               clearNecessary := state.clearNecessary } := by
  obtain ⟨sw, hfill⟩ := fillWords_returns state.words rnd hbank n 0 state.sessionWords
    (by omega)
  obtain ⟨hlen, hall⟩ := fillWords_spec state.words rnd n 0 _ sw hfill
  cases sw with
  | nil =>
    simp only [List.length_nil] at hlen
    omega
  | cons first others =>
    obtain ⟨word, hmem, hfirst⟩ := (hall 0 first (by simp)).1 (Nat.le_refl 0) (by omega)
    have hne : first.kana ≠ [] := by
      rw [hfirst]
      simp only [newStateWord, ne_eq, List.map_eq_nil_iff]
      exact hwords word hmem
    cases hk : first.kana with
    | nil => exact absurd hk hne
    | cons k ks =>
      refine ⟨first :: others, first, others, k, ks, word, hfill, rfl, hmem, hfirst, hk, ?_⟩
      simp only [selectRandomWords, Int.toNat_ofNat, hfill, hk]

/-! ## Lemmas on the frame of `handleInput` -/

theorem map_set_same {α β : Type} (f : α → β) (l : List α) (i : Nat) (a b : α)
    (h : l[i]? = some b) (hf : f a = f b) : (l.set i a).map f = l.map f := by
  apply List.ext_getElem?
  intro j
  rw [List.map_set, List.getElem?_set]
  by_cases hj : i = j
  · subst hj
    obtain ⟨hlt, hb⟩ := List.getElem?_eq_some.mp h
    subst hb
    simp [hlt, hf]
  · simp [hj]

theorem handleInput_runes (deps : Deps) (state state' : State) (input : KeyEvent)
    (hrun : handleInput deps state input = some state') :
    state'.sessionWords.map (fun w => w.kana.map Kana.kana) =
      state.sessionWords.map (fun w => w.kana.map Kana.kana) := by
  obtain ⟨word, hword, hcase⟩ := handleInput_some deps state state' input hrun
  obtain ⟨h0, hget⟩ := (wordAt_eq_some _ _ _).mp hword
  rcases hcase with ⟨_, _, _, _, hbranch⟩ | ⟨_, _, _, _, _, kana, hloop, hws⟩
  · rcases hbranch with ⟨_, next, k, ks, hn, hk, hws, _⟩ | ⟨_, hws, _⟩
    · rw [hws]
      have hn2 : (state.sessionWords.set state.activeIndex.toNat
          { kana := word.kana, typed := true, active := false })[state.activeIndex.toNat + 1]? =
          some next := by
        rw [List.getElem?_set_ne (by omega)]
        exact hn
      rw [map_set_same _ _ _ _ next hn2 (by simp [hk]),
        map_set_same (fun w : StateWord => w.kana.map Kana.kana) state.sessionWords
          state.activeIndex.toNat { kana := word.kana, typed := true, active := false } word hget
          (by rfl)]
    · rw [hws, map_set_same (fun w : StateWord => w.kana.map Kana.kana) state.sessionWords
        state.activeIndex.toNat { kana := word.kana, typed := true, active := false } word hget
        (by rfl)]
  · rw [hws]
    exact map_set_same _ _ _ _ word hget (matchKana_runes deps _ _ _ _ hloop)

/-! ## Lemmas on the view -/

theorem foldl_kana_view (styles : Styles) (kana : List Kana) :
    ∀ acc : GoString,
      kana.foldl (fun str k => str ++ k.getColoredString styles) acc =
        acc ++ concatAll (kana.map (kanaViewSpec styles)) := by
  induction kana with
  | nil =>
    intro acc
    simp [concatAll]
  | cons k ks ih =>
    intro acc
    simp only [List.foldl_cons, List.map_cons, concatAll, ih, List.append_assoc]
    rfl

theorem getColoredString_untyped (styles : Styles) (word : StateWord)
    (h : word.typed = false) :
    word.getColoredString styles = concatAll (word.kana.map (kanaViewSpec styles)) := by
  unfold StateWord.getColoredString
  simp [h, foldl_kana_view]

theorem getNormalString_eq_plainSpec (word : StateWord) :
    word.getNormalString = plainSpec word := by
  unfold StateWord.getNormalString plainSpec
  induction word.kana with
  | nil => rfl
  | cons k ks ih => simp only [List.map_cons, encodeRunes, concatAll, ih]

theorem foldl_words_view (styles : Styles) (words : List StateWord) :
    ∀ acc : GoString,
      words.foldl
          (fun view word =>
            if word.typed then
              view ++ [0x20, 0x20] ++ styles.correctWord word.getNormalString
            else if word.active then
              view ++ [0x20, 0x20] ++ styles.inProgressWord (word.getColoredString styles)
            else
              view ++ [0x20, 0x20] ++ word.getNormalString)
          acc =
        acc ++ wordsViewSpec styles words := by
  induction words with
  | nil =>
    intro acc
    simp [wordsViewSpec, concatAll]
  | cons w ws ih =>
    intro acc
    simp only [List.foldl_cons, ih]
    unfold wordsViewSpec at *
    simp only [List.map_cons, concatAll, wordViewSpec, getNormalString_eq_plainSpec]
    cases ht : w.typed with
    | true => simp
    | false =>
      cases ha : w.active with
      | true => simp [getColoredString_untyped styles w ht]
      | false => simp

/-! ## Lemmas on the match cursor -/

theorem commonLen_of_take (t : List Rune) :
    ∀ (t' w : List Rune), t'.take (commonLen t w) = t.take (commonLen t w) →
      commonLen t w ≤ commonLen t' w := by
  induction t with
  | nil =>
    intro t' w _
    simp [commonLen_nil_left]
  | cons a as ih =>
    intro t' w h
    cases w with
    | nil => simp [commonLen]
    | cons b bs =>
      rw [commonLen_cons] at h ⊢
      by_cases hab : a = b
      · simp only [hab, if_true] at h ⊢
        cases t' with
        | nil => simp at h
        | cons a' as' =>
          simp only [List.take_succ_cons, List.cons.injEq] at h
          rw [commonLen_cons]
          simp only [h.1, if_true]
          have := ih as' bs h.2
          omega
      · simp [hab]

theorem matchKana_some_stops (deps : Deps) (t : List Rune) :
    ∀ (kana kana' : List Kana) (i : Nat), matchKana deps t kana i = some kana' → t ≠ [] →
      i + matchLen t kana i < kana.length := by
  induction t with
  | nil =>
    intro kana kana' i _ h
    exact absurd rfl h
  | cons r rs ih =>
    intro kana kana' i h _
    simp only [matchKana] at h
    cases hk : kana[i]? with
    | none => simp [hk] at h
    | some k =>
      simp only [hk] at h
      have hi : i < kana.length := (List.getElem?_eq_some.mp hk).1
      rw [matchLen_cons r rs kana i k hk]
      by_cases hr : k.kana = r
      · simp only [hr, if_true] at h ⊢
        cases hk1 : (kana.set i { kana := r, state := KanaCorrect })[i + 1]? with
        | none => simp [hk1] at h
        | some k1 =>
          simp only [hk1] at h
          have hi1 : i + 1 < kana.length := by
            have := (List.getElem?_eq_some.mp hk1).1
            simpa using this
          have hmap : ((kana.set i { kana := r, state := KanaCorrect }).set (i + 1)
              { kana := k1.kana, state := KanaActive }).map Kana.kana = kana.map Kana.kana := by
            rw [map_kana_set _ _ _ _ hk1, ← hr, map_kana_set _ _ _ _ hk]
          by_cases hrs : rs = []
          · subst hrs
            have h0 : matchLen [] kana (i + 1) = 0 := commonLen_nil_left _
            omega
          · have := ih _ _ _ h hrs
            rw [matchLen_congr rs kana _ (i + 1) hmap] at this
            simp only [List.length_set] at this
            omega
      · simp only [hr, if_false]
        omega

/-! ## Lemmas on the failure of `handleInput` -/

theorem commonLen_le_right (t w : List Rune) : commonLen t w ≤ w.length := by
  induction t generalizing w with
  | nil => simp [commonLen_nil_left]
  | cons a as ih =>
    cases w with
    | nil => simp [commonLen]
    | cons b bs =>
      rw [commonLen_cons]
      split
      · have := ih bs
        simp
        omega
      · simp

theorem commonLen_eq_length_iff (t : List Rune) :
    ∀ w : List Rune, commonLen t w = w.length ↔ w <+: t := by
  induction t with
  | nil =>
    intro w
    rw [commonLen_nil_left, List.prefix_nil]
    constructor
    · intro h
      exact List.length_eq_zero.mp h.symm
    · intro h
      rw [h]
      rfl
  | cons a as ih =>
    intro w
    cases w with
    | nil => simp [commonLen]
    | cons b bs =>
      rw [commonLen_cons, List.cons_prefix_cons]
      by_cases hab : a = b
      · simp only [hab, if_true, List.length_cons, true_and]
        rw [← ih bs]
        omega
      · have hba : ¬ b = a := fun h => hab h.symm
        simp [hab, hba]

theorem matchKana_none_iff (deps : Deps) (t : List Rune) (kana : List Kana)
    (hkana : kana ≠ []) :
    matchKana deps t kana 0 = none ↔ kana.map Kana.kana <+: t := by
  have hml : matchLen t kana 0 = commonLen t (kana.map Kana.kana) := by
    simp [matchLen]
  have hle := commonLen_le_right t (kana.map Kana.kana)
  have hpos : 0 < kana.length := List.length_pos.mpr hkana
  simp only [List.length_map] at hle
  rw [← commonLen_eq_length_iff, List.length_map]
  constructor
  · intro hnone
    by_contra hne
    obtain ⟨kana', hsome, _⟩ := matchKana_stops deps t kana 0 (by omega)
    rw [hnone] at hsome
    exact absurd hsome (by simp)
  · intro heq
    cases hrun : matchKana deps t kana 0 with
    | none => rfl
    | some kana' =>
      have hne : t ≠ [] := by
        intro hnil
        rw [hnil, commonLen_nil_left] at heq
        omega
      have := matchKana_some_stops deps t kana kana' 0 hrun hne
      omega

theorem handleInput_loop_none (deps : Deps) (state : State) (input : KeyEvent)
    (word : StateWord)
    (hword : wordAt state.sessionWords state.activeIndex = some word)
    (hdone : deps.RomajiToKatakana (updatedInput state input) ≠ word.getNormalString)
    (hloop : matchKana deps (scanRunes (deps.RomajiToKatakana (updatedInput state input)))
      word.kana 0 = none) :
    handleInput deps state input = none := by
  unfold updatedInput at hdone hloop
  unfold handleInput
  simp only [editInput_sessionWords, editInput_activeIndex, hword, hdone, if_false, hloop]

/-! ## Lemmas on UTF-8: decoding undoes encoding -/

theorem decodeFrom_encodeNat (n : Nat) (h1 : n ≤ 0x10FFFF) (h2 : ¬ (0xD800 ≤ n ∧ n ≤ 0xDFFF))
    (rest : GoString) :
    decodeFrom (encodeRune (n : Int) ++ rest) 0 = (n : Int) :: decodeFrom rest 0 := by
  have hneg : ¬ ((n : Int) < 0) := by omega
  simp only [encodeRune, hneg, if_false, Int.toNat_ofNat]
  by_cases c1 : n ≤ 0x7F
  · have hlt : n < 0x80 := by omega
    simp [c1, decodeFrom, decodeRune, hlt]
  · by_cases c2 : n ≤ 0x7FF
    · have a1 : ¬ (0xC0 + n / 64 < 0x80) := by omega
      have a2 : ¬ (0xC0 + n / 64 < 0xC2) := by omega
      have a3 : 0xC0 + n / 64 < 0xE0 := by omega
      have a4 : isCont (0x80 + n % 64) = true := by
        simp only [isCont, Bool.and_eq_true, decide_eq_true_eq]
        omega
      have a5 : (0xC0 + n / 64) % 32 * 64 + (0x80 + n % 64) % 64 = n := by omega
      simp only [c1, c2, if_false, if_true, List.cons_append, List.nil_append, decodeFrom,
        decodeRune, a1, a2, a3, a4, a5]
    · by_cases c3 : n ≤ 0xFFFF
      · have a1 : ¬ (0xE0 + n / 4096 < 0x80) := by omega
        have a2 : ¬ (0xE0 + n / 4096 < 0xC2) := by omega
        have a3 : ¬ (0xE0 + n / 4096 < 0xE0) := by omega
        have a4 : 0xE0 + n / 4096 < 0xF0 := by omega
        have a5 : isCont (0x80 + n % 64) = true := by
          simp only [isCont, Bool.and_eq_true, decide_eq_true_eq]
          omega
        have a6 : (if 0xE0 + n / 4096 = 0xE0 then 0xA0 else 0x80) ≤ 0x80 + n / 64 % 64 ∧
            0x80 + n / 64 % 64 ≤ (if 0xE0 + n / 4096 = 0xED then 0x9F else 0xBF) := by
          split_ifs <;> omega
        have a7 : (0xE0 + n / 4096) % 16 * 4096 + (0x80 + n / 64 % 64) % 64 * 64 +
            (0x80 + n % 64) % 64 = n := by omega
        simp only [c1, c2, c3, h2, if_false, if_true, List.cons_append, List.nil_append,
          decodeFrom, decodeRune, a1, a2, a3, a4, a5, a6, a7, and_self]
      · have a1 : ¬ (0xF0 + n / 262144 < 0x80) := by omega
        have a2 : ¬ (0xF0 + n / 262144 < 0xC2) := by omega
        have a3 : ¬ (0xF0 + n / 262144 < 0xE0) := by omega
        have a4 : ¬ (0xF0 + n / 262144 < 0xF0) := by omega
        have a5 : 0xF0 + n / 262144 < 0xF5 := by omega
        have a6 : isCont (0x80 + n % 64) = true := by
          simp only [isCont, Bool.and_eq_true, decide_eq_true_eq]
          omega
        have a7 : isCont (0x80 + n / 64 % 64) = true := by
          simp only [isCont, Bool.and_eq_true, decide_eq_true_eq]
          omega
        have a8 : (if 0xF0 + n / 262144 = 0xF0 then 0x90 else 0x80) ≤ 0x80 + n / 4096 % 64 ∧
            0x80 + n / 4096 % 64 ≤ (if 0xF0 + n / 262144 = 0xF4 then 0x8F else 0xBF) := by
          split_ifs <;> omega
        have a9 : (0xF0 + n / 262144) % 8 * 262144 + (0x80 + n / 4096 % 64) % 64 * 4096 +
            (0x80 + n / 64 % 64) % 64 * 64 + (0x80 + n % 64) % 64 = n := by omega
        have h2' : ¬ (0xD800 ≤ n ∧ n ≤ 0xDFFF) := h2
        simp only [c1, c2, c3, h1, h2', if_false, if_true, List.cons_append, List.nil_append,
          decodeFrom, decodeRune, a1, a2, a3, a4, a5, a6, a7, a8, a9, and_self]

theorem decodeFrom_encodeRune (r : Int) (h : IsScalar r) (rest : GoString) :
    decodeFrom (encodeRune r ++ rest) 0 = r :: decodeFrom rest 0 := by
  unfold IsScalar at h
  obtain ⟨h0, h1, h2⟩ := h
  obtain ⟨n, hn⟩ : ∃ n : Nat, r = (n : Int) := ⟨r.toNat, by omega⟩
  subst hn
  have g1 : n ≤ 0x10FFFF := by omega
  have g2 : ¬ (0xD800 ≤ n ∧ n ≤ 0xDFFF) := by omega
  exact decodeFrom_encodeNat n g1 g2 rest

theorem decodeRunes_encodeRunes (cs : List Rune) (h : ∀ r ∈ cs, IsScalar r) :
    decodeRunes (encodeRunes cs) = cs := by
  unfold decodeRunes
  induction cs with
  | nil => rfl
  | cons r rs ih =>
    rw [encodeRunes, decodeFrom_encodeRune r (h r (List.mem_cons_self _ _)), ih]
    intro r' hr'
    exact h r' (List.mem_cons_of_mem _ hr')

/-- Type, backspace, retype on a session whose buffer has been scanned. -/
theorem retype_of_settled (deps : Deps) (state once : State)
    (word : StateWord) (key : Nat) (c : Int)
    (hsettled : Settled deps state)
    (hc1 : 1 ≤ c) (hc2 : c ≤ 0x7F)
    (hword : wordAt state.sessionWords state.activeIndex = some word)
    (hne : deps.RomajiToKatakana (state.currentInput ++ [c.toNat]) ≠ word.getNormalString)
    (hrun : handleInput deps state { Key := key, Rune := c } = some once) :
    ∃ thrice,
      handleInputs deps state
        [{ Key := key, Rune := c }, { Key := KeyBackspace, Rune := 0 }, { Key := key, Rune := c }] =
        some thrice ∧
      thrice.currentInput = once.currentInput ∧
      thrice.activeIndex = once.activeIndex ∧
      thrice.sessionWords = once.sessionWords := by
  obtain ⟨hne0, hloop0⟩ := hsettled word hword
  obtain ⟨h0, hget⟩ := (wordAt_eq_some _ _ _).mp hword
  have hlt : state.activeIndex.toNat < state.sessionWords.length :=
    (List.getElem?_eq_some.mp hget).1
  -- the first call for `c`
  have hupd1 := updatedInput_key state key c hc1 hc2
  obtain ⟨word1, hword1, hcase1⟩ := handleInput_some deps state once _ hrun
  rw [hword] at hword1
  cases hword1
  rw [hupd1] at hcase1
  rcases hcase1 with ⟨heq, _⟩ | ⟨_, hidx1, hbuf1, hwords1, hclear1, kana1, hloop1, hws1⟩
  · exact absurd heq hne
  have hrunes1 := matchKana_runes deps _ _ _ _ hloop1
  -- the call for backspace
  have hwordOnce : wordAt once.sessionWords once.activeIndex =
      some { kana := kana1, typed := word.typed, active := word.active } := by
    rw [wordAt_eq_some, hidx1, hws1]
    exact ⟨h0, List.getElem?_set_self hlt⟩
  have hupd2 : updatedInput once { Key := KeyBackspace, Rune := 0 } = state.currentInput := by
    rw [updatedInput_backspace, hbuf1]
    simp
  obtain ⟨kana2, hloop2, hpos2⟩ := matchKana_same_runes deps _ word.kana kana1 word.kana 0
    hrunes1 hloop0
  have hstr1 : StateWord.getNormalString
      { kana := kana1, typed := word.typed, active := word.active } = word.getNormalString := by
    unfold StateWord.getNormalString
    show encodeRunes (kana1.map Kana.kana) = encodeRunes (word.kana.map Kana.kana)
    rw [hrunes1]
  obtain ⟨twice, hstep2, hbuf2, hidx2, hws2⟩ :
      ∃ twice, handleInput deps once { Key := KeyBackspace, Rune := 0 } = some twice ∧
        twice.currentInput = state.currentInput ∧
        twice.activeIndex = state.activeIndex ∧
        twice.sessionWords = state.sessionWords.set state.activeIndex.toNat
          { kana := kana2, typed := word.typed, active := word.active } :=
    ⟨_, handleInput_loop_eq deps once { Key := KeyBackspace, Rune := 0 } _ kana2
        hwordOnce (by rw [hupd2, hstr1]; exact hne0) (by rw [hupd2]; exact hloop2),
      hupd2, hidx1, by rw [hidx1, hws1, List.set_set]⟩
  -- the second call for `c`
  have hrunes2 := matchKana_runes deps _ _ _ _ hloop2
  obtain ⟨kana3, hloop3, hpos3⟩ := matchKana_same_runes deps _ word.kana kana2 kana1 0
    (hrunes2.trans hrunes1) hloop1
  have hstr2 : StateWord.getNormalString
      { kana := kana2, typed := word.typed, active := word.active } = word.getNormalString := by
    unfold StateWord.getNormalString
    show encodeRunes (kana2.map Kana.kana) = encodeRunes (word.kana.map Kana.kana)
    rw [hrunes2, hrunes1]
  have hwordTwice : wordAt twice.sessionWords twice.activeIndex =
      some { kana := kana2, typed := word.typed, active := word.active } := by
    rw [wordAt_eq_some, hidx2, hws2]
    exact ⟨h0, List.getElem?_set_self hlt⟩
  have hupd3 : updatedInput twice { Key := key, Rune := c } = state.currentInput ++ [c.toNat] := by
    rw [updatedInput_key twice key c hc1 hc2, hbuf2]
  -- the kana after the three calls are those after the first
  have hkana3 : kana3 = kana1 := by
    apply List.ext_getElem?
    intro j
    rcases hpos3 j with h13 | ⟨h10, h32⟩
    · exact h13.symm
    · rcases hpos2 j with h02 | ⟨_, h21⟩
      · rw [h32, ← h02, ← h10]
      · rw [h32, h21]
  obtain ⟨thrice, hstep3, hbuf3, hidx3, hws3⟩ :
      ∃ thrice, handleInput deps twice { Key := key, Rune := c } = some thrice ∧
        thrice.currentInput = state.currentInput ++ [c.toNat] ∧
        thrice.activeIndex = state.activeIndex ∧
        thrice.sessionWords = state.sessionWords.set state.activeIndex.toNat
          { kana := kana3, typed := word.typed, active := word.active } :=
    ⟨_, handleInput_loop_eq deps twice { Key := key, Rune := c } _ kana3
        hwordTwice (by rw [hupd3, hstr2]; exact hne) (by rw [hupd3]; exact hloop3),
      hupd3, hidx2, by rw [hidx2, hws2, List.set_set]⟩
  refine ⟨thrice, ?_, ?_, ?_, ?_⟩
  · simp only [handleInputs, hrun, hstep2, hstep3]
  · rw [hbuf3, hbuf1]
  · rw [hidx3, hidx1]
  · rw [hws3, hws1, hkana3]

/-! ## Lemmas on the word-level frame -/

/-- The frame of `handleInput` on any session with `activeIndex` in range; the
last part under the assumption that the typed words are before `activeIndex`. -/
theorem handleInput_frame_in_range (deps : Deps) (state state' : State) (input : KeyEvent)
    (word : StateWord)
    (hword : wordAt state.sessionWords state.activeIndex = some word)
    (hrun : handleInput deps state input = some state') :
    (∀ i : Nat, i ≠ state.activeIndex.toNat → i ≠ state.activeIndex.toNat + 1 →
      state'.sessionWords[i]? = state.sessionWords[i]?) ∧
    (state'.activeIndex = state.activeIndex →
      state'.sessionWords[state.activeIndex.toNat + 1]? =
        state.sessionWords[state.activeIndex.toNat + 1]?) ∧
    (∀ next next' : StateWord,
      state.sessionWords[state.activeIndex.toNat + 1]? = some next →
      state'.sessionWords[state.activeIndex.toNat + 1]? = some next' →
      next'.typed = next.typed ∧ next'.kana.map Kana.kana = next.kana.map Kana.kana ∧
      ∀ j : Nat, 0 < j → next'.kana[j]? = next.kana[j]?) ∧
    ((∀ (i : Nat) (w : StateWord), state.sessionWords[i]? = some w → w.typed = true →
        (i : Int) < state.activeIndex) →
      ∀ (i : Nat) (w : StateWord), state.sessionWords[i]? = some w → w.typed = true →
        state'.sessionWords[i]? = some w) := by
  obtain ⟨word2, hword2, hcase⟩ := handleInput_some deps state state' input hrun
  rw [hword] at hword2
  cases hword2
  obtain ⟨h0, hget⟩ := (wordAt_eq_some _ _ _).mp hword
  have hframe : ∀ i : Nat, i ≠ state.activeIndex.toNat → i ≠ state.activeIndex.toNat + 1 →
      state'.sessionWords[i]? = state.sessionWords[i]? := by
    intro i h1 h2
    rcases hcase with ⟨_, _, _, _, hbranch⟩ | ⟨_, _, _, _, _, kana, _, hws⟩
    · rcases hbranch with ⟨_, next, k, ks, _, _, hws, _⟩ | ⟨_, hws, _⟩
      · rw [hws, List.getElem?_set_ne (fun h => h2 h.symm),
          List.getElem?_set_ne (fun h => h1 h.symm)]
      · rw [hws, List.getElem?_set_ne (fun h => h1 h.symm)]
    · rw [hws, List.getElem?_set_ne (fun h => h1 h.symm)]
  refine ⟨hframe, ?_, ?_, ?_⟩
  · intro hsame
    rcases hcase with ⟨_, hidx, _⟩ | ⟨_, _, _, _, _, kana, _, hws⟩
    · omega
    · rw [hws, List.getElem?_set_ne (by omega)]
  · intro next next' hn hn'
    rcases hcase with ⟨_, _, _, _, hbranch⟩ | ⟨_, _, _, _, _, kana, _, hws⟩
    · rcases hbranch with ⟨_, next2, k, ks, hn2, hk, hws, _⟩ | ⟨_, hws, _⟩
      · rw [hn] at hn2
        cases hn2
        have hlt1 : state.activeIndex.toNat + 1 < state.sessionWords.length :=
          (List.getElem?_eq_some.mp hn).1
        rw [hws, List.getElem?_set_self (by simpa using hlt1)] at hn'
        cases hn'
        refine ⟨rfl, by simp [hk], ?_⟩
        intro j hj
        obtain ⟨m, hm⟩ : ∃ m, j = m + 1 := ⟨j - 1, by omega⟩
        subst hm
        simp [hk]
      · rw [hws, List.getElem?_set_ne (by omega), hn] at hn'
        cases hn'
        exact ⟨rfl, rfl, fun _ _ => rfl⟩
    · rw [hws, List.getElem?_set_ne (by omega), hn] at hn'
      cases hn'
      exact ⟨rfl, rfl, fun _ _ => rfl⟩
  · intro hbefore i w hw ht
    have hi := hbefore i w hw ht
    rw [hframe i (by omega) (by omega)]
    exact hw

/-! ## The claims -/

/-- C1, as stated, fails: in the session drawn from the bank `ア`, (empty line),
the key `a` completes the active word, and `handleInput` then panics on
`kana[0]` of the next word, which has no kana. -/
theorem completion_panics_on_empty_next_word :
    newSession [bytesOf "ア", []] 2 (fun i => i) = some sessionEmptyNext ∧
    wordAt sessionEmptyNext.sessionWords sessionEmptyNext.activeIndex =
      some { kana := [{ kana := 0x30A2, state := KanaActive }], typed := false, active := true } ∧
    sampleDeps.RomajiToKatakana (updatedInput sessionEmptyNext (keyOf 'a')) = bytesOf "ア" ∧
    StateWord.getNormalString
      { kana := [{ kana := 0x30A2, state := KanaActive }], typed := false, active := true } =
      bytesOf "ア" ∧
    handleInput sampleDeps sessionEmptyNext (keyOf 'a') = none := by
  refine ⟨?_, ?_, ?_, ?_, ?_⟩ <;> decide

/-- C1, amended: completion transition of `handleInput`.  For a session whose
`activeIndex` is in range and whose next word, if there is one, has at least
one kana, and a key event after which the buffer transliterates to the active
word's string, `handleInput` returns; the formerly active word is then typed
and not active, `currentInput` is empty, `activeIndex` has grown by one, the
number of session words is unchanged, and the word at the new `activeIndex`,
if there is one, is active with its first kana in state `KanaActive`. -/
theorem handleInput_completion (deps : Deps) (state : State) (input : KeyEvent)
    (word : StateWord)
    (hword : wordAt state.sessionWords state.activeIndex = some word)
    (hdone : deps.RomajiToKatakana (updatedInput state input) = word.getNormalString)
    (hnext : ∀ next, wordAt state.sessionWords (state.activeIndex + 1) = some next →
      next.kana ≠ []) :
    ∃ state', handleInput deps state input = some state' ∧
      (∃ w, wordAt state'.sessionWords state.activeIndex = some w ∧
        w.active = false ∧ w.typed = true) ∧
      state'.currentInput = [] ∧
      state'.activeIndex = state.activeIndex + 1 ∧
      state'.sessionWords.length = state.sessionWords.length ∧
      (∀ next', wordAt state'.sessionWords state'.activeIndex = some next' →
        next'.active = true ∧ stateAt next'.kana 0 = some KanaActive) := by
  obtain ⟨state', hrun⟩ := handleInput_complete_returns deps state input word hword hdone hnext
  refine ⟨state', hrun, ?_⟩
  obtain ⟨word2, hword2, hcase⟩ := handleInput_some deps state state' input hrun
  rw [hword] at hword2
  cases hword2
  obtain ⟨h0, hget⟩ := (wordAt_eq_some _ _ _).mp hword
  have hlt : state.activeIndex.toNat < state.sessionWords.length :=
    (List.getElem?_eq_some.mp hget).1
  rcases hcase with ⟨_, hidx, hbuf, _, hbranch⟩ | ⟨hne, _⟩
  · rcases hbranch with ⟨hnextlt, next, k, ks, hn, hk, hws, _⟩ | ⟨hlast, hws, _⟩
    · have hlt1 : state.activeIndex.toNat + 1 < state.sessionWords.length :=
        (List.getElem?_eq_some.mp hn).1
      refine ⟨⟨{ kana := word.kana, typed := true, active := false }, ?_, rfl, rfl⟩,
        hbuf, hidx, ?_, ?_⟩
      · rw [wordAt_eq_some, hws]
        refine ⟨h0, ?_⟩
        rw [List.getElem?_set_ne (by omega), List.getElem?_set_self hlt]
      · rw [hws]
        simp
      · intro next' hnext'
        rw [wordAt_eq_some, hidx, hws] at hnext'
        have htoNat : (state.activeIndex + 1).toNat = state.activeIndex.toNat + 1 := by omega
        rw [htoNat, List.getElem?_set_self (by simpa using hlt1)] at hnext'
        have := hnext'.2
        cases this
        exact ⟨rfl, by simp [stateAt]⟩
    · refine ⟨⟨{ kana := word.kana, typed := true, active := false }, ?_, rfl, rfl⟩,
        hbuf, hidx, ?_, ?_⟩
      · rw [wordAt_eq_some, hws]
        exact ⟨h0, List.getElem?_set_self hlt⟩
      · rw [hws]
        simp
      · intro next' hnext'
        rw [wordAt_eq_some, hidx, hws] at hnext'
        have hnone : (state.sessionWords.set state.activeIndex.toNat
            { kana := word.kana, typed := true, active := false })[(state.activeIndex + 1).toNat]? =
            none := by
          apply List.getElem?_eq_none
          simp only [List.length_set]
          omega
        rw [hnone] at hnext'
        exact absurd hnext'.2 (by simp)
  · exact absurd hdone hne

/-- C1, amended, at the session of the words `ア`, `イ` and the key `a`. -/
theorem handleInput_completion_witness :
    ∃ state', handleInput sampleDeps sessionTwoWords (keyOf 'a') = some state' ∧
      (∃ w, wordAt state'.sessionWords sessionTwoWords.activeIndex = some w ∧
        w.active = false ∧ w.typed = true) ∧
      state'.currentInput = [] ∧
      state'.activeIndex = sessionTwoWords.activeIndex + 1 ∧
      state'.sessionWords.length = sessionTwoWords.sessionWords.length ∧
      (∀ next', wordAt state'.sessionWords state'.activeIndex = some next' →
        next'.active = true ∧ stateAt next'.kana 0 = some KanaActive) :=
  handleInput_completion sampleDeps sessionTwoWords (keyOf 'a')
    { kana := [{ kana := 0x30A2, state := KanaActive }], typed := false, active := true }
    (by decide) (by decide)
    (by
      intro next hnext
      have h : next =
          { kana := [{ kana := 0x30A4, state := KanaInactive }], typed := false, active := false } := by
        have h2 : wordAt sessionTwoWords.sessionWords (sessionTwoWords.activeIndex + 1) =
            some { kana := [{ kana := 0x30A4, state := KanaInactive }],
                   typed := false, active := false } := by decide
        rw [h2] at hnext
        exact (Option.some.inj hnext).symm
      rw [h]
      decide)

/-- C2, as stated, fails on Scenario A: from the fresh session of the one word
`ネコ`, the keys `n`, `e`, `k`, `o` give a buffer that transliterates to `ネコ`
and a typed word, whose second kana is left in state `KanaActive`. -/
theorem scenarioA_last_kana_stays_active :
    (oneWord "ネコ").bind
        (fun s => handleInputs sampleDeps s [keyOf 'n', keyOf 'e', keyOf 'k', keyOf 'o']) =
      some sessionNekoTyped ∧
    sampleDeps.RomajiToKatakana (bytesOf "neko") = bytesOf "ネコ" ∧
    (sessionNekoTyped.sessionWords.map StateWord.typed) = [true] ∧
    (sessionNekoTyped.sessionWords.map (fun w => stateAt w.kana 1)) = [some KanaActive] ∧
    KanaActive ≠ KanaCorrect := by
  refine ⟨?_, ?_, ?_, ?_, ?_⟩ <;> decide

/-- C2, amended: for a session whose `activeIndex` is in range (in particular
one reached from a fresh session by any keystrokes) and a key event after which
the buffer transliterates to the active word's string, if `handleInput` returns
then the word is typed and no longer active, and each of its kana has the rune
and the state it had before that keystroke. -/
theorem handleInput_completion_keeps_states (deps : Deps) (state state' : State)
    (input : KeyEvent) (word : StateWord)
    (hword : wordAt state.sessionWords state.activeIndex = some word)
    (hdone : deps.RomajiToKatakana (updatedInput state input) = word.getNormalString)
    (hrun : handleInput deps state input = some state') :
    wordAt state'.sessionWords state.activeIndex =
      some { kana := word.kana, typed := true, active := false } := by
  obtain ⟨word2, hword2, hcase⟩ := handleInput_some deps state state' input hrun
  rw [hword] at hword2
  cases hword2
  obtain ⟨h0, hget⟩ := (wordAt_eq_some _ _ _).mp hword
  have hlt : state.activeIndex.toNat < state.sessionWords.length :=
    (List.getElem?_eq_some.mp hget).1
  rw [wordAt_eq_some]
  refine ⟨h0, ?_⟩
  rcases hcase with ⟨_, _, _, _, hbranch⟩ | ⟨hne, _⟩
  · rcases hbranch with ⟨_, next, k, ks, _, _, hws, _⟩ | ⟨_, hws, _⟩
    · rw [hws, List.getElem?_set_ne (by omega), List.getElem?_set_self hlt]
    · rw [hws, List.getElem?_set_self hlt]
  · exact absurd hdone hne

/-- C2, amended, at the last key of Scenario A. -/
theorem handleInput_completion_keeps_states_witness :
    wordAt sessionNekoTyped.sessionWords sessionNek.activeIndex =
      some { kana := [{ kana := 0x30CD, state := KanaCorrect },
                      { kana := 0x30B3, state := KanaActive }],
             typed := true, active := false } :=
  handleInput_completion_keeps_states sampleDeps sessionNek sessionNekoTyped (keyOf 'o')
    { kana := [{ kana := 0x30CD, state := KanaCorrect }, { kana := 0x30B3, state := KanaActive }],
      typed := false, active := true }
    (by decide) (by decide) (by decide)

/-- C3: from the fresh session of the one word `キ`, the keys `k`, `y` return
and leave a session with `activeIndex` in range and no empty word; the key `a`
then gives the transliteration `キャ`, one rune longer than the word, and
`handleInput` panics with an index out of range. -/
theorem overtyped_input_panics :
    (oneWord "キ").bind (fun s => handleInputs sampleDeps s [keyOf 'k', keyOf 'y']) =
      some sessionKy ∧
    wordAt sessionKy.sessionWords sessionKy.activeIndex =
      some { kana := [{ kana := 0x30AD, state := KanaActive }], typed := false, active := true } ∧
    (∀ w ∈ sessionKy.sessionWords, w.kana ≠ []) ∧
    scanRunes (sampleDeps.RomajiToKatakana (updatedInput sessionKy (keyOf 'a'))) =
      [0x30AD, 0x30E3] ∧
    handleInput sampleDeps sessionKy (keyOf 'a') = none := by
  refine ⟨?_, ?_, ?_, ?_, ?_⟩ <;> decide

/-- C4, as stated, fails when the transliteration starts with a byte order
mark.  On the session of the word `アイ` after the key U+FEFF, the key `a` gives
the transliteration U+FEFF `ア`: its characters have no common initial segment
with the word (`k = 0`) and U+FEFF is not Katakana, so the claim has position 0
`KanaActive` and position 1 unchanged (`KanaInactive`); the scanner skips the
mark, `ア` matches, and the code leaves `KanaCorrect`, `KanaActive`. -/
theorem loop_skips_byte_order_mark :
    (oneWord "アイ").bind (fun s => handleInputs sampleDeps s [keyBom]) = some sessionAiBom ∧
    decodeRunes (sampleDeps.RomajiToKatakana (updatedInput sessionAiBom (keyOf 'a'))) =
      [0xFEFF, 0x30A2] ∧
    sampleDeps.RomajiToKatakana (updatedInput sessionAiBom (keyOf 'a')) ≠ bytesOf "アイ" ∧
    commonLen [0xFEFF, 0x30A2] [0x30A2, 0x30A4] = 0 ∧
    sampleDeps.IsKatakana 0xFEFF = false ∧
    handleInput sampleDeps sessionAiBom (keyOf 'a') = some sessionAiBomA ∧
    sessionAiBom.sessionWords.map (fun w => w.kana.map Kana.state) =
      [[KanaActive, KanaInactive]] ∧
    sessionAiBomA.sessionWords.map (fun w => w.kana.map Kana.state) =
      [[KanaCorrect, KanaActive]] := by
  refine ⟨?_, ?_, ?_, ?_, ?_, ?_, ?_, ?_⟩ <;> decide

/-- C4, amended: the postcondition of the loop of `handleInput`.  Let the session
have `activeIndex` in range with active word `word`, let `t` be the runes that
the scanner yields for the transliteration of the updated buffer (its UTF-8
decoding, less a byte order mark in first position), let that transliteration
not be the word's string, and
let `k`, the length of the longest common initial segment of `t` and the
word's runes, be smaller than the number of kana.  Then `handleInput` returns,
and in the active word afterwards: every position before `k` is `KanaCorrect`;
position `k` is `KanaIncorrect` if `t` has a rune at `k` and it is Katakana,
`KanaActive` if `t` has a rune at `k` and it is not Katakana, and `KanaActive`
if `t` ends at `k` and `k > 0`; every position after `k`, and every position
when `t` is empty, keeps its state. -/
theorem handleInput_loop_states (deps : Deps) (state : State) (input : KeyEvent)
    (word : StateWord) (t : List Rune) (k : Nat)
    (hword : wordAt state.sessionWords state.activeIndex = some word)
    (hdone : deps.RomajiToKatakana (updatedInput state input) ≠ word.getNormalString)
    (ht : t = scanRunes (deps.RomajiToKatakana (updatedInput state input)))
    (hk : k = commonLen t (word.kana.map Kana.kana))
    (hlt : k < word.kana.length) :
    ∃ state' word', handleInput deps state input = some state' ∧
      wordAt state'.sessionWords state.activeIndex = some word' ∧
      (∀ i, i < k → stateAt word'.kana i = some KanaCorrect) ∧
      (∀ r, t[k]? = some r → deps.IsKatakana r = true →
        stateAt word'.kana k = some KanaIncorrect) ∧
      (∀ r, t[k]? = some r → deps.IsKatakana r = false →
        stateAt word'.kana k = some KanaActive) ∧
      (k = t.length → 0 < k → stateAt word'.kana k = some KanaActive) ∧
      (∀ i, k < i → stateAt word'.kana i = stateAt word.kana i) ∧
      (t = [] → ∀ i, stateAt word'.kana i = stateAt word.kana i) := by
  have hk0 : matchLen t word.kana 0 = k := by
    rw [hk]
    simp [matchLen]
  have hstop : 0 + matchLen t word.kana 0 < word.kana.length := by omega
  obtain ⟨kana', hloop, _, _, p3, p4, p5, p6, p7⟩ := matchKana_stops deps t word.kana 0 hstop
  simp only [hk0, Nat.zero_add] at p3 p4 p5 p7
  rw [ht] at hloop
  obtain ⟨state', hrun⟩ := handleInput_loop_returns deps state input word kana' hword hdone hloop
  obtain ⟨word2, hword2, hcase⟩ := handleInput_some deps state state' input hrun
  rw [hword] at hword2
  cases hword2
  obtain ⟨h0, hget⟩ := (wordAt_eq_some _ _ _).mp hword
  have hidx : state.activeIndex.toNat < state.sessionWords.length :=
    (List.getElem?_eq_some.mp hget).1
  rcases hcase with ⟨heq, _⟩ | ⟨_, _, _, _, _, kana2, hloop2, hws⟩
  · exact absurd heq hdone
  · rw [hloop] at hloop2
    cases hloop2
    refine ⟨state', { kana := kana', typed := word.typed, active := word.active }, hrun, ?_,
      fun i hi => p3 i (Nat.zero_le i) hi, ?_, ?_, p5, ?_, ?_⟩
    · rw [wordAt_eq_some, hws]
      exact ⟨h0, List.getElem?_set_self hidx⟩
    · intro r hr hkat
      have := p4 r hr
      rw [hkat] at this
      exact this
    · intro r hr hkat
      have := p4 r hr
      rw [hkat] at this
      exact this
    · intro i hi
      show stateAt kana' i = stateAt word.kana i
      unfold stateAt
      rw [p7 i hi]
    · intro hnil i
      show stateAt kana' i = stateAt word.kana i
      rw [p6 hnil]

/-- C4, amended, at the fresh session of the word `アイウ` and the key `a`: the
transliteration is `ア`, so `k = 1`. -/
theorem handleInput_loop_states_witness :
    ∃ state' word', handleInput sampleDeps sessionAiu (keyOf 'a') = some state' ∧
      wordAt state'.sessionWords sessionAiu.activeIndex = some word' ∧
      (∀ i, i < 1 → stateAt word'.kana i = some KanaCorrect) ∧
      (∀ r, [(0x30A2 : Rune)][1]? = some r → sampleDeps.IsKatakana r = true →
        stateAt word'.kana 1 = some KanaIncorrect) ∧
      (∀ r, [(0x30A2 : Rune)][1]? = some r → sampleDeps.IsKatakana r = false →
        stateAt word'.kana 1 = some KanaActive) ∧
      (1 = [(0x30A2 : Rune)].length → 0 < 1 → stateAt word'.kana 1 = some KanaActive) ∧
      (∀ i, 1 < i →
        stateAt word'.kana i =
          stateAt (StateWord.kana
            { kana := [{ kana := 0x30A2, state := KanaActive },
                       { kana := 0x30A4, state := KanaInactive },
                       { kana := 0x30A6, state := KanaInactive }],
              typed := false, active := true }) i) ∧
      ([(0x30A2 : Rune)] = [] → ∀ i,
        stateAt word'.kana i =
          stateAt (StateWord.kana
            { kana := [{ kana := 0x30A2, state := KanaActive },
                       { kana := 0x30A4, state := KanaInactive },
                       { kana := 0x30A6, state := KanaInactive }],
              typed := false, active := true }) i) :=
  handleInput_loop_states sampleDeps sessionAiu (keyOf 'a')
    { kana := [{ kana := 0x30A2, state := KanaActive },
               { kana := 0x30A4, state := KanaInactive },
               { kana := 0x30A6, state := KanaInactive }],
      typed := false, active := true }
    [0x30A2] 1 (by decide) (by decide) (by decide) (by decide) (by decide)

/-- C5: with the same word `アイウ` and the same buffer `a`, the character
states after the keys `a`, `i`, backspace differ from those after the key `a`
alone: the third kana is left `KanaActive` by the discarded `i`. -/
theorem backspace_leaves_stale_active :
    (oneWord "アイウ").bind (fun s => handleInputs sampleDeps s [keyOf 'a']) =
      some sessionAiuA ∧
    (oneWord "アイウ").bind
        (fun s => handleInputs sampleDeps s [keyOf 'a', keyOf 'i', backspace]) =
      some sessionAiuStale ∧
    sessionAiuA.currentInput = sessionAiuStale.currentInput ∧
    sessionAiuA.sessionWords.map StateWord.getNormalString =
      sessionAiuStale.sessionWords.map StateWord.getNormalString ∧
    sessionAiuA.sessionWords.map (fun w => stateAt w.kana 2) = [some KanaInactive] ∧
    sessionAiuStale.sessionWords.map (fun w => stateAt w.kana 2) = [some KanaActive] ∧
    KanaInactive ≠ KanaActive := by
  refine ⟨?_, ?_, ?_, ?_, ?_, ?_, ?_⟩ <;> decide

/-- C6: type, backspace, retype equals type once.  Let the transliteration of
the empty string be empty.  For every session reached from a freshly generated
one by calls of `handleInput`, with `activeIndex` in range and buffer `b`, and
every single-byte character `c` such that `b + c` does not transliterate to the
active word and `handleInput` returns on `c`: the three calls for `c`,
backspace, `c` return, with the same input buffer, `activeIndex` and session
words (flags and kana states) as the one call for `c`.  That `b` does not
transliterate to the active word holds in every such session. -/
theorem retype_after_backspace (deps : Deps) (words : List GoString) (n : Nat)
    (rnd : Nat → Nat) (inputs : List KeyEvent) (fresh state once : State)
    (word : StateWord) (key : Nat) (c : Int)
    (hempty : deps.RomajiToKatakana [] = [])
    (hnew : newSession words n rnd = some fresh)
    (hreach : handleInputs deps fresh inputs = some state)
    (hc1 : 1 ≤ c) (hc2 : c ≤ 0x7F)
    (hword : wordAt state.sessionWords state.activeIndex = some word)
    (hne : deps.RomajiToKatakana (state.currentInput ++ [c.toNat]) ≠ word.getNormalString)
    (hrun : handleInput deps state { Key := key, Rune := c } = some once) :
    deps.RomajiToKatakana state.currentInput ≠ word.getNormalString ∧
    ∃ thrice,
      handleInputs deps state
        [{ Key := key, Rune := c }, { Key := KeyBackspace, Rune := 0 }, { Key := key, Rune := c }] =
        some thrice ∧
      thrice.currentInput = once.currentInput ∧
      thrice.activeIndex = once.activeIndex ∧
      thrice.sessionWords = once.sessionWords := by
  have hsettled := handleInputs_settled deps hempty inputs fresh state
    (newSession_settled deps words n rnd fresh hempty hnew) hreach
  exact ⟨(hsettled word hword).1,
    retype_of_settled deps state once word key c hsettled hc1 hc2 hword hne hrun⟩

/-- C6 on the fresh session of the word `アイウ` (no key yet), for the key `a`:
Scenario D for the first character. -/
theorem retype_after_backspace_witness :
    sampleDeps.RomajiToKatakana sessionAiu.currentInput ≠
      StateWord.getNormalString
        { kana := [{ kana := 0x30A2, state := KanaActive },
                   { kana := 0x30A4, state := KanaInactive },
                   { kana := 0x30A6, state := KanaInactive }],
          typed := false, active := true } ∧
    ∃ thrice,
      handleInputs sampleDeps sessionAiu
        [{ Key := 0, Rune := 97 }, { Key := KeyBackspace, Rune := 0 }, { Key := 0, Rune := 97 }] =
        some thrice ∧
      thrice.currentInput = sessionAiuA.currentInput ∧
      thrice.activeIndex = sessionAiuA.activeIndex ∧
      thrice.sessionWords = sessionAiuA.sessionWords :=
  retype_after_backspace sampleDeps [bytesOf "アイウ"] 1 (fun _ => 0) [] sessionAiu sessionAiu
    sessionAiuA
    { kana := [{ kana := 0x30A2, state := KanaActive },
               { kana := 0x30A4, state := KanaInactive },
               { kana := 0x30A6, state := KanaInactive }],
      typed := false, active := true }
    0 97 (by decide) (by decide) (by decide) (by decide) (by decide) (by decide) (by decide)
    (by decide)

/-- C7: the session-length invariant.  For a session with
`0 ≤ activeIndex < len(sessionWords)`, that is, one that has a word `word` at
`activeIndex`, and a key event on which `handleInput` returns: the new `activeIndex` is the old one or the old
one plus one; it is the old one plus one exactly when the transliteration of
the updated buffer equals the active word's string; and it does not exceed the
number of session words, which is unchanged. -/
theorem activeIndex_step (deps : Deps) (state state' : State) (input : KeyEvent)
    (word : StateWord)
    (hword : wordAt state.sessionWords state.activeIndex = some word)
    (hrun : handleInput deps state input = some state') :
    (state'.activeIndex = state.activeIndex ∨ state'.activeIndex = state.activeIndex + 1) ∧
    (state'.activeIndex = state.activeIndex + 1 ↔
      deps.RomajiToKatakana (updatedInput state input) = word.getNormalString) ∧
    state'.activeIndex ≤ state'.sessionWords.length ∧
    state'.sessionWords.length = state.sessionWords.length := by
  obtain ⟨word2, hword2, hcase⟩ := handleInput_some deps state state' input hrun
  rw [hword] at hword2
  cases hword2
  obtain ⟨h0, hget⟩ := (wordAt_eq_some _ _ _).mp hword
  have hlt : state.activeIndex.toNat < state.sessionWords.length :=
    (List.getElem?_eq_some.mp hget).1
  rcases hcase with ⟨hdone, hidx, _, _, hbranch⟩ | ⟨hne, hidx, _, _, _, kana, _, hws⟩
  · have hlen : state'.sessionWords.length = state.sessionWords.length := by
      rcases hbranch with ⟨_, next, k, ks, _, _, hws, _⟩ | ⟨_, hws, _⟩ <;>
        simp [hws]
    refine ⟨Or.inr hidx, ⟨fun _ => hdone, fun _ => hidx⟩, ?_, hlen⟩
    rw [hidx, hlen]
    omega
  · have hlen : state'.sessionWords.length = state.sessionWords.length := by
      simp [hws]
    refine ⟨Or.inl hidx, ⟨fun h => ?_, fun h => absurd h hne⟩, ?_, hlen⟩
    · omega
    · rw [hidx, hlen]
      omega

/-- C7 at the fresh session of the word `アイウ` and the key `a`, which does
not complete the word. -/
theorem activeIndex_step_witness :
    (sessionAiuA.activeIndex = sessionAiu.activeIndex ∨
      sessionAiuA.activeIndex = sessionAiu.activeIndex + 1) ∧
    (sessionAiuA.activeIndex = sessionAiu.activeIndex + 1 ↔
      sampleDeps.RomajiToKatakana (updatedInput sessionAiu (keyOf 'a')) =
        StateWord.getNormalString
          { kana := [{ kana := 0x30A2, state := KanaActive },
                     { kana := 0x30A4, state := KanaInactive },
                     { kana := 0x30A6, state := KanaInactive }],
            typed := false, active := true }) ∧
    sessionAiuA.activeIndex ≤ sessionAiuA.sessionWords.length ∧
    sessionAiuA.sessionWords.length = sessionAiu.sessionWords.length :=
  activeIndex_step sampleDeps sessionAiu sessionAiuA (keyOf 'a') _ (by decide) (by decide)

/-- C8: the fresh session of the one word `ア` is finished by the key `a`
(`activeIndex` equals the number of session words), and on the finished session
`handleInput` panics on every key event, whatever the transliteration: line 113
indexes `sessionWords` out of range. -/
theorem finished_session_panics :
    (oneWord "ア").bind (fun s => handleInputs sampleDeps s [keyOf 'a']) =
      some sessionFinished ∧
    sessionFinished.activeIndex = sessionFinished.sessionWords.length ∧
    ∀ (deps : Deps) (input : KeyEvent), handleInput deps sessionFinished input = none :=
  ⟨by decide, by decide,
    fun deps input => handleInput_finished deps sessionFinished input (by decide)⟩

/-- C10: from the fresh session of the one word `ア`, the key `é` appends the
two bytes of its UTF-8 encoding to the empty buffer, and backspace then removes
one byte only: the buffer is left with the byte `0xC3`, not empty.  Neither
call completes the word. -/
theorem backspace_removes_one_byte :
    oneWord "ア" = some sessionA ∧
    sessionA.currentInput = [] ∧
    encodeRune 0xE9 = [0xC3, 0xA9] ∧
    handleInput sampleDeps sessionA keyEAcute = some sessionAccent ∧
    sessionAccent.currentInput = [0xC3, 0xA9] ∧
    handleInput sampleDeps sessionAccent backspace = some sessionAccentCut ∧
    sessionAccentCut.currentInput = [0xC3] ∧
    sessionAccentCut.activeIndex = 0 := by
  refine ⟨?_, ?_, ?_, ?_, ?_, ?_, ?_, ?_⟩ <;> decide

/-- C9: the active-word invariant.  In the session that `selectRandomWords`
produces at the start of `main`, and in every session reached from it by calls
of `handleInput` that return: at most one word is active; the word at
`activeIndex`, while there is one, is active; a word is typed exactly when its
index is smaller than `activeIndex`; and a typed word is not active. -/
theorem active_word_invariant (deps : Deps) (words : List GoString) (n : Nat)
    (rnd : Nat → Nat) (inputs : List KeyEvent) (fresh state : State)
    (hnew : newSession words n rnd = some fresh)
    (hrun : handleInputs deps fresh inputs = some state) :
    (∀ (i j : Nat) (wi wj : StateWord), state.sessionWords[i]? = some wi →
      state.sessionWords[j]? = some wj → wi.active = true → wj.active = true → i = j) ∧
    (∀ w, wordAt state.sessionWords state.activeIndex = some w → w.active = true) ∧
    (∀ (i : Nat) (w : StateWord), state.sessionWords[i]? = some w →
      (w.typed = true ↔ (i : Int) < state.activeIndex)) ∧
    (∀ (i : Nat) (w : StateWord), state.sessionWords[i]? = some w →
      w.typed = true → w.active = false) := by
  obtain ⟨h0, _, hall⟩ :=
    handleInputs_inv deps inputs fresh state (newSession_inv words n rnd fresh hnew) hrun
  refine ⟨?_, ?_, ?_, ?_⟩
  · intro i j wi wj hi hj hai haj
    have h1 := (hall i wi hi).2.mp hai
    have h2 := (hall j wj hj).2.mp haj
    omega
  · intro w hw
    obtain ⟨_, hget⟩ := (wordAt_eq_some _ _ _).mp hw
    exact (hall _ w hget).2.mpr (by omega)
  · intro i w hw
    exact (hall i w hw).1
  · intro i w hw ht
    have h1 := (hall i w hw).1.mp ht
    cases ha : w.active with
    | false => rfl
    | true =>
      have h2 := (hall i w hw).2.mp ha
      omega

/-- C9 at the session of the words `ア`, `イ` after the key `a`. -/
theorem active_word_invariant_witness :
    (∀ (i j : Nat) (wi wj : StateWord), sessionTwoWordsNext.sessionWords[i]? = some wi →
      sessionTwoWordsNext.sessionWords[j]? = some wj → wi.active = true → wj.active = true →
      i = j) ∧
    (∀ w, wordAt sessionTwoWordsNext.sessionWords sessionTwoWordsNext.activeIndex = some w →
      w.active = true) ∧
    (∀ (i : Nat) (w : StateWord), sessionTwoWordsNext.sessionWords[i]? = some w →
      (w.typed = true ↔ (i : Int) < sessionTwoWordsNext.activeIndex)) ∧
    (∀ (i : Nat) (w : StateWord), sessionTwoWordsNext.sessionWords[i]? = some w →
      w.typed = true → w.active = false) :=
  active_word_invariant sampleDeps [bytesOf "ア", bytesOf "イ"] 2 (fun i => i) [keyOf 'a']
    sessionTwoWords sessionTwoWordsNext (by decide) (by decide)

/-- C11: ignored events are no-ops.  Let the transliteration of the empty
string be empty.  In a session reached from a freshly generated one by calls of
`handleInput`, and not finished (there is a word at `activeIndex`), a key event
without a rune that is not backspace, or is backspace while `currentInput` is
empty, makes `handleInput` return the session as it was: buffer, `activeIndex`,
words, flags, kana states and `clearNecessary`. -/
theorem ignored_event_noop (deps : Deps) (words : List GoString) (n : Nat) (rnd : Nat → Nat)
    (inputs : List KeyEvent) (fresh state : State) (input : KeyEvent) (word : StateWord)
    (hempty : deps.RomajiToKatakana [] = [])
    (hnew : newSession words n rnd = some fresh)
    (hrun : handleInputs deps fresh inputs = some state)
    (hword : wordAt state.sessionWords state.activeIndex = some word)
    (hrune : input.Rune = 0)
    (hkey : input.Key ≠ KeyBackspace ∨ state.currentInput = []) :
    handleInput deps state input = some state := by
  have hsettled := handleInputs_settled deps hempty inputs fresh state
    (newSession_settled deps words n rnd fresh hempty hnew) hrun
  obtain ⟨hne, hloop⟩ := hsettled word hword
  have hedit := editInput_ignored state input hrune hkey
  have hupd : updatedInput state input = state.currentInput := by
    unfold updatedInput
    rw [hedit]
  rw [handleInput_loop_eq deps state input word word.kana hword (by rw [hupd]; exact hne)
    (by rw [hupd]; exact hloop), hupd, hedit]
  obtain ⟨_, hget⟩ := (wordAt_eq_some _ _ _).mp hword
  have hset : state.sessionWords.set state.activeIndex.toNat
      { kana := word.kana, typed := word.typed, active := word.active } = state.sessionWords :=
    set_getElem?_self _ _ _ hget
  rw [hset]

/-- C11 at the session of the word `アイウ` after the key `a`, for a key event
without a rune whose key code, `0xFFEB`, is not that of backspace. -/
theorem ignored_event_noop_witness :
    handleInput sampleDeps sessionAiuA { Key := 0xFFEB, Rune := 0 } = some sessionAiuA :=
  ignored_event_noop sampleDeps [bytesOf "アイウ"] 1 (fun _ => 0) [keyOf 'a'] sessionAiu
    sessionAiuA { Key := 0xFFEB, Rune := 0 }
    { kana := [{ kana := 0x30A2, state := KanaCorrect },
               { kana := 0x30A4, state := KanaActive },
               { kana := 0x30A6, state := KanaInactive }],
      typed := false, active := true }
    (by decide) (by decide) (by decide) (by decide) (by decide) (by decide)

/-- C12, as stated, fails: on the fresh session of the word `アイウ` the key `a`
changes the kana states of the active word, and `clearNecessary` is `false`
after the call. -/
theorem states_change_without_redraw_flag :
    wordAt sessionAiu.sessionWords sessionAiu.activeIndex =
      some { kana := [{ kana := 0x30A2, state := KanaActive },
                      { kana := 0x30A4, state := KanaInactive },
                      { kana := 0x30A6, state := KanaInactive }],
             typed := false, active := true } ∧
    handleInput sampleDeps sessionAiu (keyOf 'a') = some sessionAiuA ∧
    sessionAiu.sessionWords.map (fun w => w.kana.map Kana.state) =
      [[KanaActive, KanaInactive, KanaInactive]] ∧
    sessionAiuA.sessionWords.map (fun w => w.kana.map Kana.state) =
      [[KanaCorrect, KanaActive, KanaInactive]] ∧
    sessionAiuA.clearNecessary = false := by
  refine ⟨?_, ?_, ?_, ?_, ?_⟩ <;> decide

/-- C12, amended: what sets `clearNecessary`.  For a key event on which
`handleInput` returns: the flag is true afterwards if the call moved
`activeIndex` to a word that exists, and if the event is a backspace on a
non-empty buffer; if `activeIndex` is unchanged and the event is no such
backspace, the flag keeps its value, whether kana states changed or not. -/
theorem clearNecessary_step (deps : Deps) (state state' : State) (input : KeyEvent)
    (hrun : handleInput deps state input = some state') :
    ((state'.activeIndex ≠ state.activeIndex ∧
        state'.activeIndex < state'.sessionWords.length) → state'.clearNecessary = true) ∧
    ((input.Rune = 0 ∧ input.Key = KeyBackspace ∧ state.currentInput ≠ []) →
      state'.clearNecessary = true) ∧
    (state'.activeIndex = state.activeIndex →
      ¬ (input.Rune = 0 ∧ input.Key = KeyBackspace ∧ state.currentInput ≠ []) →
      state'.clearNecessary = state.clearNecessary) := by
  obtain ⟨word, hword, hcase⟩ := handleInput_some deps state state' input hrun
  rcases hcase with ⟨_, hidx, _, _, hbranch⟩ | ⟨_, hidx, _, _, hclear, _⟩
  · rcases hbranch with ⟨_, _, _, _, _, _, _, hclear⟩ | ⟨hlast, hws, hclear⟩
    · exact ⟨fun _ => hclear, fun _ => hclear, fun h => by omega⟩
    · refine ⟨fun h => ?_, fun h => ?_, fun h => by omega⟩
      · have h2 := h.2
        rw [hidx, hws] at h2
        simp only [List.length_set] at h2
        omega
      · rw [hclear]
        exact editInput_clearNecessary_backspace state input h
  · refine ⟨fun h => absurd hidx h.1, fun h => ?_, fun _ h => ?_⟩
    · rw [hclear]
      exact editInput_clearNecessary_backspace state input h
    · rw [hclear]
      exact editInput_clearNecessary_other state input h

/-- C12, amended, at the session of the words `ア`, `イ` and the key `a`, which
moves `activeIndex` to the second word. -/
theorem clearNecessary_step_witness :
    ((sessionTwoWordsNext.activeIndex ≠ sessionTwoWords.activeIndex ∧
        sessionTwoWordsNext.activeIndex < sessionTwoWordsNext.sessionWords.length) →
      sessionTwoWordsNext.clearNecessary = true) ∧
    (((keyOf 'a').Rune = 0 ∧ (keyOf 'a').Key = KeyBackspace ∧
        sessionTwoWords.currentInput ≠ []) →
      sessionTwoWordsNext.clearNecessary = true) ∧
    (sessionTwoWordsNext.activeIndex = sessionTwoWords.activeIndex →
      ¬ ((keyOf 'a').Rune = 0 ∧ (keyOf 'a').Key = KeyBackspace ∧
        sessionTwoWords.currentInput ≠ []) →
      sessionTwoWordsNext.clearNecessary = sessionTwoWords.clearNecessary) :=
  clearNecessary_step sampleDeps sessionTwoWords sessionTwoWordsNext (keyOf 'a') (by decide)

/-- C13, as stated, fails for a bank word that begins with a byte order mark,
which the scanner of lines 79-81 skips.  The bank of the one word U+FEFF is not
empty and its word is not empty, and `selectRandomWords` panics on `kana[0]`;
for the bank of the one word U+FEFF `ア` the session word has the one rune `ア`,
not the two characters of the bank word. -/
theorem byte_order_mark_word_loses_character :
    ([[0xEF, 0xBB, 0xBF]] : List GoString) ≠ [] ∧
    ([0xEF, 0xBB, 0xBF] : GoString) ≠ [] ∧
    decodeRunes [0xEF, 0xBB, 0xBF] = [0xFEFF] ∧
    selectRandomWords (initialState [[0xEF, 0xBB, 0xBF]] 1) 1 (fun _ => 0) = none ∧
    decodeRunes [0xEF, 0xBB, 0xBF, 0xE3, 0x82, 0xA2] = [0xFEFF, 0x30A2] ∧
    (selectRandomWords (initialState [[0xEF, 0xBB, 0xBF, 0xE3, 0x82, 0xA2]] 1) 1
        (fun _ => 0)).map (fun s => s.sessionWords.map (fun w => w.kana.map Kana.kana)) =
      some [[0x30A2]] := by
  refine ⟨?_, ?_, ?_, ?_, ?_, ?_⟩ <;> decide

/-- C13, amended: the postcondition of session generation.  For a non-empty
bank whose words each have at least one character and do not begin with a byte
order mark, a count `n > 0` equal to the number of session slots, and any
random draws, `selectRandomWords` returns; each of the `n` session words then
has the characters of some bank word, in order (the UTF-8 decoding of the word,
which for the encoding of a sequence of Unicode scalar values is that
sequence), and is not typed; the first word, and no other, is active; and
every kana is `KanaInactive`, except the first kana of the first word, which is
`KanaActive`. -/
theorem selectRandomWords_post (state : State) (n : Nat) (rnd : Nat → Nat)
    (hbank : state.words ≠ [])
    (hwords : ∀ word ∈ state.words,
      decodeRunes word ≠ [] ∧ (decodeRunes word).head? ≠ some BOM)
    (hn : 0 < n) (hlen : state.sessionWords.length = n) :
    ∃ state', selectRandomWords state n rnd = some state' ∧
      state'.sessionWords.length = n ∧
      ∀ (i : Nat) (w : StateWord), state'.sessionWords[i]? = some w →
        (∃ word ∈ state.words, w.kana.map Kana.kana = decodeRunes word ∧
          ∀ cs : List Rune, (∀ r ∈ cs, IsScalar r) → word = encodeRunes cs →
            w.kana.map Kana.kana = cs) ∧
        w.typed = false ∧ (w.active = true ↔ i = 0) ∧
        ∀ (j : Nat) (k : Kana), w.kana[j]? = some k →
          k.state = if i = 0 ∧ j = 0 then KanaActive else KanaInactive := by
  have hscan : ∀ word ∈ state.words, scanRunes word = decodeRunes word := by
    intro word hmem
    have hmark := (hwords word hmem).2
    unfold scanRunes
    cases hd : decodeRunes word with
    | nil => rfl
    | cons r rs =>
      rw [hd] at hmark
      have hr : ¬ r = BOM := by
        intro hr
        apply hmark
        simp [hr]
      simp [hr]
  have hchars : ∀ word ∈ state.words, ∀ runes : List Rune, runes = scanRunes word →
      runes = decodeRunes word ∧
        ∀ cs : List Rune, (∀ r ∈ cs, IsScalar r) → word = encodeRunes cs → runes = cs := by
    intro word hmem runes hrunes
    rw [hrunes, hscan word hmem]
    refine ⟨rfl, fun cs hcs hword => ?_⟩
    rw [hword]
    exact decodeRunes_encodeRunes cs hcs
  obtain ⟨sw, first, others, k, ks, word, hfill, hsw, hmem, hfirst, hk, hrun⟩ :=
    selectRandomWords_returns state n rnd hbank
      (fun word hmem => by rw [hscan word hmem]; exact (hwords word hmem).1) hn (by omega)
  obtain ⟨hlen2, hall⟩ := fillWords_spec state.words rnd n 0 _ sw hfill
  subst hsw
  refine ⟨_, hrun, ?_, ?_⟩
  · simp only [List.length_cons] at hlen2 ⊢
    omega
  · intro i w hw
    cases i with
    | zero =>
      simp only [List.getElem?_cons_zero, Option.some.injEq] at hw
      subst hw
      refine ⟨⟨word, hmem, ?_⟩, ?_, ?_, ?_⟩
      · apply hchars word hmem
        rw [← newStateWord_runes word, ← hfirst, hk]
        rfl
      · rw [hfirst]
        rfl
      · simp
      · intro j kj hkj
        cases j with
        | zero =>
          simp only [List.getElem?_cons_zero, Option.some.injEq] at hkj
          subst hkj
          simp
        | succ j =>
          simp only [List.getElem?_cons_succ] at hkj
          have hin : (newStateWord word).kana[j + 1]? = some kj := by
            rw [← hfirst, hk]
            simpa using hkj
          simp [newStateWord_state word (j + 1) kj hin]
    | succ i =>
      simp only [List.getElem?_cons_succ] at hw
      have hilt : i + 1 < n := by
        have := (List.getElem?_eq_some.mp hw).1
        simp only [List.length_cons] at hlen2
        omega
      obtain ⟨word2, hmem2, hw2⟩ :=
        (hall (i + 1) w (by simpa using hw)).1 (Nat.zero_le _) (by omega)
      refine ⟨⟨word2, hmem2, ?_⟩, ?_, ?_, ?_⟩
      · apply hchars word2 hmem2
        rw [hw2]
        exact newStateWord_runes word2
      · rw [hw2]
        rfl
      · rw [hw2]
        simp [newStateWord]
      · intro j kj hkj
        rw [hw2] at hkj
        simp [newStateWord_state word2 j kj hkj]

/-- C13, amended, at the bank `ア`, `イ` with two slots, drawn in order. -/
theorem selectRandomWords_post_witness :
    ∃ state',
      selectRandomWords (initialState [bytesOf "ア", bytesOf "イ"] 2) (2 : Nat) (fun i => i) =
        some state' ∧
      state'.sessionWords.length = 2 ∧
      ∀ (i : Nat) (w : StateWord), state'.sessionWords[i]? = some w →
        (∃ word ∈ (initialState [bytesOf "ア", bytesOf "イ"] 2).words,
          w.kana.map Kana.kana = decodeRunes word ∧
          ∀ cs : List Rune, (∀ r ∈ cs, IsScalar r) → word = encodeRunes cs →
            w.kana.map Kana.kana = cs) ∧
        w.typed = false ∧ (w.active = true ↔ i = 0) ∧
        ∀ (j : Nat) (k : Kana), w.kana[j]? = some k →
          k.state = if i = 0 ∧ j = 0 then KanaActive else KanaInactive :=
  selectRandomWords_post (initialState [bytesOf "ア", bytesOf "イ"] 2) 2 (fun i => i)
    (by decide) (by decide) (by decide) (by decide)

/-- C14, as stated, fails: the bank of an empty line and the word `ア` is not
empty, and with the empty line drawn for the first slot `selectRandomWords`
panics on `kana[0]` (line 96). -/
theorem blank_line_makes_generation_fail :
    ([[], bytesOf "ア"] : List GoString) ≠ [] ∧
    (initialState [[], bytesOf "ア"] 1).sessionWords.length = 1 ∧
    selectRandomWords (initialState [[], bytesOf "ア"] 1) 1 (fun _ => 0) = none := by
  refine ⟨?_, ?_, ?_⟩ <;> decide

/-- C14, amended: for a bank whose words each have at least one character
besides a byte order mark in first position (the UTF-8 decoding of the word is
neither empty nor the mark alone) and a count `n > 0` not exceeding the number
of session slots, `selectRandomWords` fails, by the panic of `rand.Intn(0)`,
and produces no session exactly when the bank is empty. -/
theorem selectRandomWords_fails_iff (state : State) (n : Nat) (rnd : Nat → Nat)
    (hwords : ∀ word ∈ state.words, decodeRunes word ≠ [] ∧ decodeRunes word ≠ [BOM])
    (hn : 0 < n) (hle : n ≤ state.sessionWords.length) :
    selectRandomWords state n rnd = none ↔ state.words = [] := by
  have hscan : ∀ word ∈ state.words, scanRunes word ≠ [] := by
    intro word hmem
    obtain ⟨h1, h2⟩ := hwords word hmem
    unfold scanRunes
    cases hd : decodeRunes word with
    | nil => exact absurd hd h1
    | cons r rs =>
      by_cases hr : r = BOM
      · simp only [hr, if_true]
        intro hrs
        apply h2
        rw [hd, hr, hrs]
      · simp [hr]
  constructor
  · intro hnone
    by_contra hbank
    obtain ⟨_, _, _, _, _, _, _, _, _, _, _, hrun⟩ :=
      selectRandomWords_returns state n rnd hbank hscan hn hle
    rw [hrun] at hnone
    exact absurd hnone (by simp)
  · intro hbank
    obtain ⟨m, hm⟩ : ∃ m, n = m + 1 := ⟨n - 1, by omega⟩
    subst hm
    simp only [selectRandomWords, Int.toNat_ofNat, hbank, fillWords_empty_bank]

/-- C14, amended, at the bank of the one word `ア` with one slot. -/
theorem selectRandomWords_fails_iff_witness :
    selectRandomWords (initialState [bytesOf "ア"] 1) (1 : Nat) (fun _ => 0) = none ↔
      (initialState [bytesOf "ア"] 1).words = [] :=
  selectRandomWords_fails_iff (initialState [bytesOf "ア"] 1) 1 (fun _ => 0)
    (by decide) (by decide) (by decide)

/-- C15: character sequences are immutable.  For every session and key event on
which `handleInput` returns, the word bank, the number of session words, the
runes of the kana of every session word, and hence the `getNormalString` of
every session word, are the same after the call as before. -/
theorem handleInput_keeps_runes (deps : Deps) (state state' : State) (input : KeyEvent)
    (hrun : handleInput deps state input = some state') :
    state'.words = state.words ∧
    state'.sessionWords.length = state.sessionWords.length ∧
    state'.sessionWords.map (fun w => w.kana.map Kana.kana) =
      state.sessionWords.map (fun w => w.kana.map Kana.kana) ∧
    state'.sessionWords.map StateWord.getNormalString =
      state.sessionWords.map StateWord.getNormalString := by
  have hrunes := handleInput_runes deps state state' input hrun
  have hlen : state'.sessionWords.length = state.sessionWords.length := by
    have := congrArg List.length hrunes
    simpa using this
  refine ⟨?_, hlen, hrunes, ?_⟩
  · obtain ⟨word, _, hcase⟩ := handleInput_some deps state state' input hrun
    rcases hcase with ⟨_, _, _, hwords, _⟩ | ⟨_, _, _, hwords, _⟩ <;> exact hwords
  · have := congrArg (List.map encodeRunes) hrunes
    simpa [List.map_map, Function.comp_def, StateWord.getNormalString] using this

/-- C15 at the fresh session of the word `アイウ` and the key `a`. -/
theorem handleInput_keeps_runes_witness :
    sessionAiuA.words = sessionAiu.words ∧
    sessionAiuA.sessionWords.length = sessionAiu.sessionWords.length ∧
    sessionAiuA.sessionWords.map (fun w => w.kana.map Kana.kana) =
      sessionAiu.sessionWords.map (fun w => w.kana.map Kana.kana) ∧
    sessionAiuA.sessionWords.map StateWord.getNormalString =
      sessionAiu.sessionWords.map StateWord.getNormalString :=
  handleInput_keeps_runes sampleDeps sessionAiu sessionAiuA (keyOf 'a') (by decide)

/-- C16: the view projection.  `getWordsView` is the specification's view of the
session words: for each word, in order, two spaces, then the plain string in
the confirmed style if the word is typed, else, if it is active, the
concatenation of its kana each styled by its own state, wrapped in the
in-progress word style, else the plain string.  Hence two sessions with the
same session words have the same view, whatever their buffer, `activeIndex`
and `clearNecessary`.  The plain string that `getNormalString` gives is the
UTF-8 text of the word's characters: it decodes to them.  A typed word alone
is viewed as two spaces and its plain string in the confirmed style, whatever
its active flag and kana states; and `getColoredString` leaves an inactive kana
unstyled, as the UTF-8 text of its rune. -/
theorem getWordsView_spec (styles : Styles) (state : State) :
    getWordsView styles state = wordsViewSpec styles state.sessionWords ∧
    (∀ other : State, other.sessionWords = state.sessionWords →
      getWordsView styles other = getWordsView styles state) ∧
    (∀ word : StateWord, (∀ k ∈ word.kana, IsScalar k.kana) →
      decodeRunes word.getNormalString = word.kana.map Kana.kana) ∧
    (∀ word : StateWord, word.typed = true →
      getWordsView styles
        { words := state.words, sessionWords := [word], activeIndex := state.activeIndex,
          currentInput := state.currentInput, clearNecessary := state.clearNecessary } =
        [0x20, 0x20] ++ styles.correctWord word.getNormalString) ∧
    (∀ r : Rune, Kana.getColoredString styles { kana := r, state := KanaInactive } =
        encodeRune r ∧
      (IsScalar r →
        decodeRunes (Kana.getColoredString styles { kana := r, state := KanaInactive }) =
          [r])) := by
  have hview : ∀ s : State, getWordsView styles s = wordsViewSpec styles s.sessionWords := by
    intro s
    unfold getWordsView
    rw [foldl_words_view]
    simp
  have hkana : ∀ r : Rune,
      Kana.getColoredString styles { kana := r, state := KanaInactive } = encodeRune r := by
    intro r
    simp [Kana.getColoredString, KanaInactive, KanaActive, KanaCorrect, KanaIncorrect]
  refine ⟨hview state, ?_, ?_, ?_, ?_⟩
  · intro other h
    rw [hview, hview, h]
  · intro word hscalar
    unfold StateWord.getNormalString
    apply decodeRunes_encodeRunes
    intro r hr
    obtain ⟨k, hk, hkr⟩ := List.mem_map.mp hr
    rw [← hkr]
    exact hscalar k hk
  · intro word h
    simp [getWordsView, h]
  · intro r
    refine ⟨hkana r, fun hr => ?_⟩
    rw [hkana r]
    have := decodeRunes_encodeRunes [r] (by
      intro r' hr'
      rw [List.mem_singleton.mp hr']
      exact hr)
    simpa [encodeRunes] using this

/-- C17, as stated, fails on a run of printable keys without backspace: on the
fresh session of the word `ンコ` the key `n` gives the transliteration `ン` and
the scan stops at position 1; the key `a` then gives `ナ`, the scan stops at
position 0, and the first kana goes from `KanaCorrect` to `KanaIncorrect`.
Neither key completes the word. -/
theorem cursor_moves_back_without_backspace :
    oneWord "ンコ" = some sessionNko ∧
    handleInput sampleDeps sessionNko (keyOf 'n') = some sessionNkoN ∧
    handleInput sampleDeps sessionNkoN (keyOf 'a') = some sessionNkoNa ∧
    commonLen (scanRunes (sampleDeps.RomajiToKatakana sessionNkoN.currentInput))
      [0x30F3, 0x30B3] = 1 ∧
    commonLen (scanRunes (sampleDeps.RomajiToKatakana sessionNkoNa.currentInput))
      [0x30F3, 0x30B3] = 0 ∧
    sessionNkoN.sessionWords.map (fun w => stateAt w.kana 0) = [some KanaCorrect] ∧
    sessionNkoNa.sessionWords.map (fun w => stateAt w.kana 0) = [some KanaIncorrect] := by
  refine ⟨?_, ?_, ?_, ?_, ?_, ?_, ?_⟩ <;> decide

/-- C17, amended: the monotonic cursor.  Let `handleInput` return without
completing the active word `word`, let `t'` be the scanned runes of the
transliteration of the buffer after the edit of the keystroke, and let `k` be
the match cursor before, the length of the longest common initial segment of
the word's runes and the scanned runes of the transliteration of the buffer
before the keystroke.  If the keystroke leaves the first `k`
runes of the transliteration as they were, then the match cursor after the
keystroke is at least `k`, and in the active word afterwards, which has the
same runes, every position before `k` is `KanaCorrect`. -/
theorem cursor_monotone (deps : Deps) (state state' : State) (input : KeyEvent)
    (word : StateWord) (t' : List Rune) (k : Nat)
    (hword : wordAt state.sessionWords state.activeIndex = some word)
    (hrun : handleInput deps state input = some state')
    (hsame : state'.activeIndex = state.activeIndex)
    (ht' : t' = scanRunes (deps.RomajiToKatakana (updatedInput state input)))
    (hk : k = commonLen (scanRunes (deps.RomajiToKatakana state.currentInput))
      (word.kana.map Kana.kana))
    (hkeep : t'.take k = (scanRunes (deps.RomajiToKatakana state.currentInput)).take k) :
    ∃ word', wordAt state'.sessionWords state'.activeIndex = some word' ∧
      word'.kana.map Kana.kana = word.kana.map Kana.kana ∧
      k ≤ commonLen t' (word'.kana.map Kana.kana) ∧
      ∀ i, i < k → stateAt word'.kana i = some KanaCorrect := by
  obtain ⟨word2, hword2, hcase⟩ := handleInput_some deps state state' input hrun
  rw [hword] at hword2
  cases hword2
  obtain ⟨h0, hget⟩ := (wordAt_eq_some _ _ _).mp hword
  have hlt : state.activeIndex.toNat < state.sessionWords.length :=
    (List.getElem?_eq_some.mp hget).1
  rcases hcase with ⟨_, hidx, _⟩ | ⟨_, hidx, _, _, _, kana, hloop, hws⟩
  · omega
  rw [← ht'] at hloop
  have hrunes := matchKana_runes deps _ _ _ _ hloop
  have hge : k ≤ commonLen t' (word.kana.map Kana.kana) := by
    rw [hk] at hkeep ⊢
    exact commonLen_of_take _ t' _ hkeep
  refine ⟨{ kana := kana, typed := word.typed, active := word.active }, ?_, hrunes, ?_, ?_⟩
  · rw [wordAt_eq_some, hidx, hws]
    exact ⟨h0, List.getElem?_set_self hlt⟩
  · show k ≤ commonLen t' (kana.map Kana.kana)
    rw [hrunes]
    exact hge
  · intro i hi
    show stateAt kana i = some KanaCorrect
    have hml : matchLen t' word.kana 0 = commonLen t' (word.kana.map Kana.kana) := by
      simp [matchLen]
    have hne : t' ≠ [] := by
      intro hnil
      rw [hnil, commonLen_nil_left] at hge
      omega
    have hstop := matchKana_some_stops deps t' word.kana kana 0 hloop hne
    obtain ⟨kana2, hloop2, _, _, p3, _⟩ := matchKana_stops deps t' word.kana 0 hstop
    rw [hloop] at hloop2
    cases hloop2
    exact p3 i (Nat.zero_le i) (by omega)

/-- C17, amended, at the session of the word `アイウ` after the key `a`, for the
key `i`: the transliteration goes from `ア` to `アイ`. -/
theorem cursor_monotone_witness :
    ∃ word', wordAt sessionAiuAi.sessionWords sessionAiuAi.activeIndex = some word' ∧
      word'.kana.map Kana.kana = [0x30A2, 0x30A4, 0x30A6] ∧
      1 ≤ commonLen [0x30A2, 0x30A4] (word'.kana.map Kana.kana) ∧
      ∀ i, i < 1 → stateAt word'.kana i = some KanaCorrect :=
  cursor_monotone sampleDeps sessionAiuA sessionAiuAi (keyOf 'i')
    { kana := [{ kana := 0x30A2, state := KanaCorrect },
               { kana := 0x30A4, state := KanaActive },
               { kana := 0x30A6, state := KanaInactive }],
      typed := false, active := true }
    [0x30A2, 0x30A4] 1
    (by decide) (by decide) (by decide) (by decide) (by decide) (by decide)

/-- C18, as stated, fails: on the session of the one word `ア` after the key of
the byte order mark, the key `a` gives the transliteration U+FEFF `ア`, which is
not the word's string; the scanner skips the mark and yields the one rune `ア`,
so the word's runes are matched and no transliterated rune is left over, and
`handleInput` panics with an index out of range. -/
theorem panic_without_leftover_rune :
    handleInput sampleDeps sessionA keyBom = some sessionBom ∧
    wordAt sessionBom.sessionWords sessionBom.activeIndex =
      some { kana := [{ kana := 0x30A2, state := KanaActive }], typed := false, active := true } ∧
    (∀ w ∈ sessionBom.sessionWords, w.kana ≠ []) ∧
    sampleDeps.RomajiToKatakana (updatedInput sessionBom (keyOf 'a')) =
      [0xEF, 0xBB, 0xBF, 0xE3, 0x82, 0xA2] ∧
    scanRunes (sampleDeps.RomajiToKatakana (updatedInput sessionBom (keyOf 'a'))) = [0x30A2] ∧
    sessionBom.sessionWords.map (fun w => w.kana.map Kana.kana) = [[0x30A2]] ∧
    handleInput sampleDeps sessionBom (keyOf 'a') = none := by
  refine ⟨?_, ?_, ?_, ?_, ?_, ?_, ?_⟩ <;> decide

/-- C18, amended: the exact failure condition of `handleInput`.  For a session
with `activeIndex` in range, with active word `word`, whose session words all
have at least one kana, and a key event: `handleInput` panics exactly when the
transliteration of the updated buffer is not the word's string and the word's
runes are an initial segment of the runes that the scanner yields for that
transliteration; in every other case it returns. -/
theorem handleInput_fails_iff (deps : Deps) (state : State) (input : KeyEvent)
    (word : StateWord)
    (hword : wordAt state.sessionWords state.activeIndex = some word)
    (hkana : ∀ w ∈ state.sessionWords, w.kana ≠ []) :
    (handleInput deps state input = none ↔
      deps.RomajiToKatakana (updatedInput state input) ≠ word.getNormalString ∧
      word.kana.map Kana.kana <+:
        scanRunes (deps.RomajiToKatakana (updatedInput state input))) ∧
    (handleInput deps state input ≠ none → ∃ state', handleInput deps state input = some state') := by
  obtain ⟨h0, hget⟩ := (wordAt_eq_some _ _ _).mp hword
  have hwkana : word.kana ≠ [] := hkana word (List.getElem?_mem hget)
  refine ⟨⟨fun hnone => ?_, fun h => ?_⟩, fun h => ?_⟩
  · by_cases hdone : deps.RomajiToKatakana (updatedInput state input) = word.getNormalString
    · obtain ⟨state', hrun⟩ := handleInput_complete_returns deps state input word hword hdone
        (fun next hnext => hkana next (List.getElem?_mem ((wordAt_eq_some _ _ _).mp hnext).2))
      rw [hnone] at hrun
      exact absurd hrun (by simp)
    · refine ⟨hdone, ?_⟩
      rw [← matchKana_none_iff deps _ word.kana hwkana]
      cases hloop : matchKana deps
          (scanRunes (deps.RomajiToKatakana (updatedInput state input))) word.kana 0 with
      | none => rfl
      | some kana =>
        obtain ⟨state', hrun⟩ := handleInput_loop_returns deps state input word kana hword hdone
          hloop
        rw [hnone] at hrun
        exact absurd hrun (by simp)
  · exact handleInput_loop_none deps state input word hword h.1
      ((matchKana_none_iff deps _ word.kana hwkana).mpr h.2)
  · cases hrun : handleInput deps state input with
    | none => exact absurd hrun h
    | some state' => exact ⟨state', rfl⟩

/-- C18, amended, at the session of the word `キ` after the keys `k`, `y`, for the
key `a`. -/
theorem handleInput_fails_iff_witness :
    (handleInput sampleDeps sessionKy (keyOf 'a') = none ↔
      sampleDeps.RomajiToKatakana (updatedInput sessionKy (keyOf 'a')) ≠
        StateWord.getNormalString
          { kana := [{ kana := 0x30AD, state := KanaActive }], typed := false, active := true } ∧
      [(0x30AD : Rune)] <+:
        scanRunes (sampleDeps.RomajiToKatakana (updatedInput sessionKy (keyOf 'a')))) ∧
    (handleInput sampleDeps sessionKy (keyOf 'a') ≠ none →
      ∃ state', handleInput sampleDeps sessionKy (keyOf 'a') = some state') :=
  handleInput_fails_iff sampleDeps sessionKy (keyOf 'a')
    { kana := [{ kana := 0x30AD, state := KanaActive }], typed := false, active := true }
    (by decide) (by decide)

/-- C19: the word-level frame of `handleInput`.  For every session reached from
a freshly generated one by calls of `handleInput`, with `activeIndex` in range,
and every key event on which `handleInput` returns: every session word other
than the one at the old `activeIndex` and the one after it is unchanged; the
word after it is unchanged when `activeIndex` is (the keystroke does not
complete the active word), and otherwise keeps its typed flag, its runes and
the states of all kana but the first; and no word that is typed before the
call is modified. -/
theorem handleInput_word_frame (deps : Deps) (words : List GoString) (n : Nat)
    (rnd : Nat → Nat) (inputs : List KeyEvent) (fresh state state' : State) (input : KeyEvent)
    (word : StateWord)
    (hnew : newSession words n rnd = some fresh)
    (hreach : handleInputs deps fresh inputs = some state)
    (hword : wordAt state.sessionWords state.activeIndex = some word)
    (hrun : handleInput deps state input = some state') :
    (∀ i : Nat, i ≠ state.activeIndex.toNat → i ≠ state.activeIndex.toNat + 1 →
      state'.sessionWords[i]? = state.sessionWords[i]?) ∧
    (state'.activeIndex = state.activeIndex →
      state'.sessionWords[state.activeIndex.toNat + 1]? =
        state.sessionWords[state.activeIndex.toNat + 1]?) ∧
    (∀ next next' : StateWord,
      state.sessionWords[state.activeIndex.toNat + 1]? = some next →
      state'.sessionWords[state.activeIndex.toNat + 1]? = some next' →
      next'.typed = next.typed ∧ next'.kana.map Kana.kana = next.kana.map Kana.kana ∧
      ∀ j : Nat, 0 < j → next'.kana[j]? = next.kana[j]?) ∧
    (∀ (i : Nat) (w : StateWord), state.sessionWords[i]? = some w → w.typed = true →
      state'.sessionWords[i]? = some w) := by
  obtain ⟨_, _, hall⟩ :=
    handleInputs_inv deps inputs fresh state (newSession_inv words n rnd fresh hnew) hreach
  obtain ⟨h1, h2, h3, h4⟩ := handleInput_frame_in_range deps state state' input word hword hrun
  exact ⟨h1, h2, h3, h4 (fun i w hw ht => (hall i w hw).1.mp ht)⟩

/-- C19 at the session of the words `ア`, `イ` after the key `a` (the first word
typed), for the key `k`. -/
theorem handleInput_word_frame_witness :
    (∀ i : Nat, i ≠ sessionTwoWordsNext.activeIndex.toNat →
      i ≠ sessionTwoWordsNext.activeIndex.toNat + 1 →
      sessionTwoWordsNextK.sessionWords[i]? = sessionTwoWordsNext.sessionWords[i]?) ∧
    (sessionTwoWordsNextK.activeIndex = sessionTwoWordsNext.activeIndex →
      sessionTwoWordsNextK.sessionWords[sessionTwoWordsNext.activeIndex.toNat + 1]? =
        sessionTwoWordsNext.sessionWords[sessionTwoWordsNext.activeIndex.toNat + 1]?) ∧
    (∀ next next' : StateWord,
      sessionTwoWordsNext.sessionWords[sessionTwoWordsNext.activeIndex.toNat + 1]? =
        some next →
      sessionTwoWordsNextK.sessionWords[sessionTwoWordsNext.activeIndex.toNat + 1]? =
        some next' →
      next'.typed = next.typed ∧ next'.kana.map Kana.kana = next.kana.map Kana.kana ∧
      ∀ j : Nat, 0 < j → next'.kana[j]? = next.kana[j]?) ∧
    (∀ (i : Nat) (w : StateWord), sessionTwoWordsNext.sessionWords[i]? = some w →
      w.typed = true → sessionTwoWordsNextK.sessionWords[i]? = some w) :=
  handleInput_word_frame sampleDeps [bytesOf "ア", bytesOf "イ"] 2 (fun i => i) [keyOf 'a']
    sessionTwoWords sessionTwoWordsNext sessionTwoWordsNextK (keyOf 'k')
    { kana := [{ kana := 0x30A4, state := KanaActive }], typed := false, active := true }
    (by decide) (by decide) (by decide) (by decide)

end JpType
